import Mathlib

/-!
Verification development for the `edtui-jagged` ragged 2D container.

The Rust sources are shallowly embedded: `Vec<Vec<T>>` becomes
`List (List α)`, `usize` becomes `Nat` (all index arithmetic in the
library is saturating or guarded, so unbounded naturals are adequate),
and every operation that can fail a slice-bound check in Rust (raw
indexing, `Vec::drain`, `Vec::remove`, `Vec::insert`) is modelled with
`Option`, `none` standing for the fatal out-of-bounds failure.
-/

namespace Edtui

/-- A position (row, column) in a jagged array (src/index.rs, `Index2`). -/
structure Index2 where
  row : Nat
  col : Nat
deriving DecidableEq

/-- Row-major strict order on positions, from the `PartialOrd` impl in
src/index.rs (compare rows first, then columns). -/
def i2lt (a b : Index2) : Prop :=
  a.row < b.row ∨ (a.row = b.row ∧ a.col < b.col)

instance (a b : Index2) : Decidable (i2lt a b) := by
  unfold i2lt; exact inferInstance

/-- Row-major reflexive order on positions. -/
def i2le (a b : Index2) : Prop :=
  a.row < b.row ∨ (a.row = b.row ∧ a.col ≤ b.col)

instance (a b : Index2) : Decidable (i2le a b) := by
  unfold i2le; exact inferInstance

@[simp] theorem Index2.row_mk (r c : Nat) : (Index2.mk r c).row = r := rfl

@[simp] theorem Index2.col_mk (r c : Nat) : (Index2.mk r c).col = c := rfl

theorem i2lt_trans_le {a b c : Index2} (h1 : i2lt a b) (h2 : i2le b c) : i2lt a c := by
  rcases h1 with h1 | ⟨h1, h1c⟩ <;> rcases h2 with h2 | ⟨h2, h2c⟩ <;>
    unfold i2lt <;> omega

theorem i2le_trans {a b c : Index2} (h1 : i2le a b) (h2 : i2le b c) : i2le a c := by
  rcases h1 with h1 | ⟨h1, h1c⟩ <;> rcases h2 with h2 | ⟨h2, h2c⟩ <;>
    unfold i2le <;> omega

/-- The jagged container: an outer vector of rows (src/jagged.rs, `Jagged`). -/
structure Jagged (α : Type) where
  data : List (List α)
deriving DecidableEq

namespace Jagged

variable {α : Type}

/-- `Jagged::len`: the number of rows. -/
def len (j : Jagged α) : Nat := j.data.length

/-- `Jagged::len_col`: the number of columns of a row, `none` if the row
index is out of bounds. -/
def len_col (j : Jagged α) (row : Nat) : Option Nat := (j.data.get? row).map List.length

/-- The row at an index, defaulting to the empty row (used to state facts
about rows; `(j.len_col r).getD 0 = (j.rowAt r).length` always holds). -/
def rowAt (j : Jagged α) (row : Nat) : List α := (j.data.get? row).getD []

/-- `Jagged::last_row_index` (saturating). -/
def last_row_index (j : Jagged α) : Nat := j.len - 1

/-- `Jagged::last_col_index` (saturating, 0 for a missing row). -/
def last_col_index (j : Jagged α) (row : Nat) : Nat :=
  match j.data.get? row with
  | some r => r.length - 1
  | none => 0

/-- Element lookup, `JaggedIndex for Index2::get` (src/traits.rs). -/
def get (j : Jagged α) (i : Index2) : Option α :=
  (j.data.get? i.row).bind fun line => line.get? i.col

end Jagged

/-- `Index2::out_of_bounds` (src/index.rs): the row is past the end, or the
column is nonzero and not smaller than the addressed row's length.  Column 0
is in bounds for any existing row, even an empty one. -/
def Index2.out_of_bounds {α : Type} (i : Index2) (j : Jagged α) : Prop :=
  i.row ≥ j.len ∨ (i.col ≠ 0 ∧ i.col ≥ (j.len_col i.row).getD 0)

instance {α : Type} (i : Index2) (j : Jagged α) : Decidable (i.out_of_bounds j) := by
  unfold Index2.out_of_bounds; exact inferInstance

namespace Jagged

variable {α : Type}

/-- `Jagged::is_first_row` (src/jagged/helper.rs). -/
def is_first_row (j : Jagged α) (i : Index2) : Bool :=
  i.row == 0 && !j.data.isEmpty

/-- `Jagged::is_last_row` (src/jagged/helper.rs). -/
def is_last_row (j : Jagged α) (i : Index2) : Bool :=
  !j.data.isEmpty && i.row == j.data.length - 1

/-- `Jagged::is_first_col` (src/jagged/helper.rs). -/
def is_first_col (j : Jagged α) (i : Index2) : Bool :=
  match j.data.get? i.row with
  | some _ => i.col == 0
  | none => false

/-- `Jagged::is_last_col` (src/jagged/helper.rs, saturating length - 1). -/
def is_last_col (j : Jagged α) (i : Index2) : Bool :=
  match j.data.get? i.row with
  | some row => decide (i.col ≥ row.length - 1)
  | none => false

/-- `Jagged::next` (src/jagged.rs): the next position in row-major order,
together with the optional element there (`none` element = empty row). -/
def next (j : Jagged α) (index : Index2) : Option (Option α × Index2) :=
  match j.is_last_row index, j.is_last_col index with
  | true, true => none
  | false, true =>
    let p : Index2 := ⟨index.row + 1, 0⟩
    match j.get p with
    | some v => some (some v, p)
    | none => some (none, p)
  | _, _ =>
    let p : Index2 := ⟨index.row, index.col + 1⟩
    (j.get p).map fun v => (some v, p)

/-- `Jagged::prev` (src/jagged.rs).  The column subtraction in the last arm
is Rust `usize` arithmetic that never underflows on any input where that arm
both runs and has its result observed (when `index.col = 0` there, the row
does not exist and the lookup misses for any column value); `Nat` truncated
subtraction yields the same observable result. -/
def prev (j : Jagged α) (index : Index2) : Option (Option α × Index2) :=
  match j.is_first_row index, j.is_first_col index with
  | true, true => none
  | false, true =>
    let row := index.row - 1
    let p : Index2 := ⟨row, (j.rowAt row).length - 1⟩
    match j.get p with
    | some v => some (some v, p)
    | none => some (none, p)
  | _, _ =>
    let p : Index2 := ⟨index.row, index.col - 1⟩
    (j.get p).map fun v => (some v, p)

/-- `JaggedRemove for Index2` (src/traits.rs): `data[row].remove(col)`.
`none` models the fatal out-of-bounds failure of either indexing step. -/
def removeAt (j : Jagged α) (i : Index2) : Option (α × Jagged α) :=
  match j.data.get? i.row with
  | none => none
  | some line =>
    match line.get? i.col with
    | none => none
    | some v => some (v, ⟨j.data.set i.row (line.eraseIdx i.col)⟩)

/-- `JaggedRemove for RowIndex` (src/traits.rs): `data.remove(row)`.
`none` models the fatal out-of-bounds failure. -/
def removeRow (j : Jagged α) (r : Nat) : Option (List α × Jagged α) :=
  match j.data.get? r with
  | none => none
  | some line => some (line, ⟨j.data.eraseIdx r⟩)

/-- `JaggedSlice<T> for T::insert_into` (src/traits.rs): a no-op when the row
is missing, `Vec::insert` otherwise; `none` models `Vec::insert`'s bound
failure when the column exceeds the row length. -/
def insertElem (j : Jagged α) (i : Index2) (v : α) : Option (Jagged α) :=
  match j.data.get? i.row with
  | none => some j
  | some line =>
    if i.col ≤ line.length then
      some ⟨j.data.set i.row (line.take i.col ++ v :: line.drop i.col)⟩
    else none

/-- `Jagged::append` (src/jagged.rs): moves the rows of `other` to the end of
`self`, leaving `other` empty; the pair is (new self, new other). -/
def append (j other : Jagged α) : Jagged α × Jagged α :=
  (⟨j.data ++ other.data⟩, ⟨[]⟩)

/-- `Jagged::join_lines` (src/jagged.rs): fuse row `row_index` with the row
after it; no-op when `row_index + 1` is out of bounds. -/
def join_lines (j : Jagged α) (row_index : Nat) : Jagged α :=
  if row_index + 1 ≥ j.len then j
  else
    let row := (j.data.get? (row_index + 1)).getD []
    let d := j.data.eraseIdx (row_index + 1)
    ⟨d.set row_index (((d.get? row_index).getD []) ++ row)⟩

end Jagged

/-- One end of a range of positions (`std::ops::Bound<Index2>`). -/
inductive Bnd where
  | included (i : Index2)
  | excluded (i : Index2)
  | unbounded
deriving DecidableEq

namespace Jagged

variable {α : Type}

/-- `Jagged::range_bounds` (src/jagged.rs): normalize a pair of range bounds
to a concrete inclusive (start, end) pair; `none` signals the intentionally
empty selection (excluded end at the origin). -/
def range_bounds (j : Jagged α) (s e : Bnd) : Option (Index2 × Index2) :=
  let start : Index2 :=
    match s with
    | .included val => ⟨val.row, val.col⟩
    | .excluded val => ⟨val.row, val.col + 1⟩
    | .unbounded => ⟨0, 0⟩
  match e with
  | .included val => some (start, ⟨val.row, val.col⟩)
  | .excluded val =>
    match val.row, val.col with
    | 0, 0 => none
    | row + 1, 0 => some (start, ⟨row, j.last_col_index row⟩)
    | row, col + 1 => some (start, ⟨row, col⟩)
  | .unbounded =>
    let lr := j.last_row_index
    some (start, ⟨lr, j.last_col_index lr⟩)

/-- `Vec::drain` over the index range `a..b`: the drained slice and the
remainder; `none` models the bound failure (`a > b` or `b > len`). -/
def drainRange (l : List α) (a b : Nat) : Option (List α × List α) :=
  if a ≤ b ∧ b ≤ l.length then
    some ((l.drop a).take (b - a), l.take a ++ l.drop b)
  else none

/-- The body of `Jagged::extract` (src/jagged.rs) after range normalization,
start-row rejection and start/end clamping: split-point computation,
degenerate-range rejection, and the three extraction shapes.  `start`/`end1`
are the clamped bounds, `start_oob`/`end_oob` the clamping flags and
`drained0` the leading fragment contributed by an out-of-bounds start. -/
def extractCore (j : Jagged α) (start end1 : Index2) (start_oob end_oob : Bool)
    (drained0 : List (List α)) : Option (Jagged α × Jagged α) :=
  let sx : Option Nat × Nat :=
    if start.col = 0 ∧ start_oob = false then (none, start.row)
    else if start_oob then (none, start.row + 1)
    else (some start.col, start.row + 1)
  let split_start := sx.1
  let extract_from := sx.2
  let max_end_col := j.last_col_index end1.row
  let ex : Option Nat × Nat :=
    if end1.col ≥ max_end_col then (none, end1.row)
    else (some end1.col, end1.row - 1)
  let split_end := ex.1
  let extract_until := ex.2
  if i2lt end1 start ∨ (start = end1 ∧ start_oob = true) then some (⟨[]⟩, j) else
  if start.row = end1.row ∧ split_start = none ∧ split_end = none then
    match drainRange j.data start.row (start.row + 1) with
    | none => none
    | some (rows, rest) => some (⟨drained0 ++ rows⟩, ⟨rest⟩)
  else if start.row = end1.row then
    match j.data.get? start.row with
    | none => none
    | some row =>
      match drainRange row start.col (end1.col + 1) with
      | none => none
      | some (mid, row_rest) =>
        let d1 : Jagged α := ⟨j.data.set start.row row_rest⟩
        let d2 : Jagged α :=
          if start_oob then d1.join_lines (start.row - 1)
          else if end_oob then d1.join_lines start.row
          else d1
        some (⟨drained0 ++ [mid]⟩, d2)
  else
    let step1 : Option (List (List α) × List (List α)) :=
      match split_start with
      | none => some (drained0, j.data)
      | some ss =>
        match j.data.get? start.row with
        | none => none
        | some row =>
          match drainRange row ss row.length with
          | none => none
          | some (tail1, head1) =>
            some (drained0 ++ [tail1], j.data.set start.row head1)
    match step1 with
    | none => none
    | some (dr1, data1) =>
      match drainRange data1 extract_from (extract_until + 1) with
      | none => none
      | some (rows, data2) =>
        let num := rows.length
        let dr2 := dr1 ++ rows
        let step3 : Option (List (List α) × List (List α)) :=
          match split_end with
          | none => some (dr2, data2)
          | some se =>
            match data2.get? (end1.row - num) with
            | none => none
            | some row2 =>
              match drainRange row2 0 (se + 1) with
              | none => none
              | some (head2, tail2) =>
                some (dr2 ++ [head2], data2.set (end1.row - num) tail2)
        match step3 with
        | none => none
        | some (dr3, data3) =>
          let fin : Jagged α :=
            if split_start.isSome ∨ start_oob = true then
              (⟨data3⟩ : Jagged α).join_lines start.row
            else ⟨data3⟩
          some (⟨dr3⟩, fin)

/-- `Jagged::extract` on an already-normalized inclusive (start, end) pair:
start-row rejection, start-column clamping (with the leading empty fragment
row) and end clamping, then `extractCore`. -/
def extractGo (j : Jagged α) (start0 end0 : Index2) : Option (Jagged α × Jagged α) :=
  if start0.row > j.last_row_index then some (⟨[]⟩, j) else
  let max_start_col : Nat :=
    match j.len_col start0.row with
    | some l => l - 1
    | none => 0
  let start_oob : Bool := decide (start0.col > max_start_col)
  let start : Index2 := if start_oob then ⟨start0.row, max_start_col⟩ else start0
  let drained0 : List (List α) := if start_oob then [[]] else []
  if start.row > j.last_row_index then some (⟨drained0⟩, j) else
  let ec : Index2 × Bool :=
    if end0.row > j.last_row_index then
      (⟨j.last_row_index, j.last_col_index j.last_row_index⟩, true)
    else if end0.col > j.last_col_index end0.row then
      (⟨end0.row, j.last_col_index end0.row⟩, true)
    else (end0, false)
  extractCore j start ec.1 start_oob ec.2 drained0

/-- `Jagged::extract` (src/jagged.rs): remove the given range of positions,
returning (drained, remaining); `none` marks a slice-bound failure in one of
the underlying `Vec` operations (never reached, see `extract_no_failure_c1`).
`Vec::drain` over `a..=b` is modelled as `drainRange _ a (b+1)`. -/
def extract (j : Jagged α) (s e : Bnd) : Option (Jagged α × Jagged α) :=
  if j.data.isEmpty then some (⟨[]⟩, j) else
  match j.range_bounds s e with
  | none => some (⟨[]⟩, j)
  | some (start0, end0) => j.extractGo start0 end0

/-- The state of the forward `JaggedIterator` (src/jagged/iter.rs).  Forward
traversal never moves before row 0, so the signed row is a `Nat` here;
`stopAt` is the iterator's `end` field. -/
structure IterSt where
  row : Nat
  col : Nat
  stopAt : Option Index2
  stop : Bool
deriving DecidableEq

/-- The forward `Iterator::next` of `JaggedIterator`, iterated: the list of
yielded (optional element, position) pairs, driven by fuel (each yield
consumes one unit; `fuelFor` below always suffices). -/
def iterList (j : Jagged α) : Nat → IterSt → List (Option α × Index2)
  | 0, _ => []
  | fuel + 1, st =>
    let cur : Index2 := ⟨st.row, st.col⟩
    if st.stop ∨ cur.out_of_bounds j then []
    else
      let st1 : IterSt :=
        match j.next cur with
        | some (_, idx) => { st with row := idx.row, col := idx.col }
        | none => { st with stop := true }
      let st2 : IterSt := if st.stopAt = some cur then { st1 with stop := true } else st1
      (j.get cur, cur) :: iterList j fuel st2

/-- Fuel that upper-bounds the number of yields of any traversal of `j`. -/
def fuelFor (j : Jagged α) : Nat := ((j.data.map fun l => l.length + 1).sum) + 1

/-- Push an element onto the last row (`JaggedSlice<T> for T::push_into`,
src/traits.rs: `data[len - 1].push(v)`, a no-op on an empty container). -/
def pushLastElem : List (List α) → α → List (List α)
  | [], _ => []
  | [l], v => [l ++ [v]]
  | l :: rest, v => l :: pushLastElem rest v

/-- The loop body of `FromIterator for Jagged` (src/jagged/iter.rs): open a
new row when the container is empty or the observed row index changes, then
append the element when present.  State: (rows so far, current row index). -/
def fromIterStep (acc : List (List α) × Nat) (pair : Option α × Index2) :
    List (List α) × Nat :=
  let t : List (List α) × Nat :=
    if acc.1.isEmpty ∨ pair.2.row ≠ acc.2 then (acc.1 ++ [[]], pair.2.row) else acc
  match pair.1 with
  | some v => (pushLastElem t.1 v, t.2)
  | none => t

/-- `FromIterator for Jagged`: collect yielded pairs into a container. -/
def collectJ (pairs : List (Option α × Index2)) : Jagged α :=
  ⟨(pairs.foldl fromIterStep ([], 0)).1⟩

/-- `Jagged::copy_range` (src/jagged.rs): non-destructive read of a range,
via `iter().from(start).to(end).collect()`; `.to` clamps the end column to
the row length (`min`), and an out-of-bounds start or end contributes a
synthetic empty row on the corresponding side. -/
def copy_range (j : Jagged α) (s e : Bnd) : Jagged α :=
  match j.range_bounds s e with
  | none => ⟨[]⟩
  | some (start0, end0) =>
    let ps : List (List α) × Index2 :=
      if start0.col > j.last_col_index start0.row then ([[]], ⟨start0.row + 1, 0⟩)
      else ([], start0)
    let pre := ps.1
    let start := ps.2
    let pe : Index2 × List (List α) :=
      if end0.col > j.last_col_index end0.row then
        (⟨end0.row, j.last_col_index end0.row⟩, [[]])
      else (end0, [])
    let end1 := pe.1
    let post := pe.2
    let stopAt : Index2 := ⟨end1.row, min end1.col ((j.len_col end1.row).getD 0)⟩
    let pairs := iterList j (fuelFor j) ⟨start.row, start.col, some stopAt, false⟩
    ⟨pre ++ (collectJ pairs).data ++ post⟩

/-- The sliding-window update of the match scan
(src/jagged/match_indices.rs): clear the window when entering column 0, trim
it to leave room when it already holds a full pattern's worth, then append
the current element. -/
def scanBump (pat buf : List α) (c : Nat) (v : α) : List α :=
  let b1 := if c = 0 then [] else buf
  let b2 := if pat.length ≤ b1.length then b1.tail else b1
  b2 ++ [v]

/-- The scan loop inside `Iterator::next for MatchIndices`
(src/jagged/match_indices.rs): walk the yielded pairs, skip absent elements,
update the sliding window, and report the position of the window's last
element on a match. -/
def scanPairs [DecidableEq α] (pat : List α) :
    List (Option α × Index2) → List α → Option Index2
  | [], _ => none
  | (v?, idx) :: rest, buf =>
    match v? with
    | none => scanPairs pat rest buf
    | some v =>
      let b3 := scanBump pat buf idx.col v
      if b3 = pat then some idx else scanPairs pat rest b3

/-- `Iterator::next for MatchIndices`, iterated from a given resume position:
the list of reported match start positions.  Each `next` call scans
`iter().from(start_index)` with a fresh window, reports
`(idx.row, idx.col - (pat.length - 1))` on a match, and resumes after the
matched region at `next(idx)`. -/
def matchIndicesFrom [DecidableEq α] (j : Jagged α) (pat : List α) :
    Nat → Option Index2 → List Index2
  | 0, _ => []
  | _ + 1, none => []
  | fuel + 1, some si =>
    if j.data.isEmpty ∨ pat.isEmpty then []
    else
      match scanPairs pat (iterList j (fuelFor j) ⟨si.row, si.col, none, false⟩) [] with
      | none => []
      | some idx =>
        (⟨idx.row, idx.col - (pat.length - 1)⟩ : Index2) ::
          matchIndicesFrom j pat fuel ((j.next idx).map Prod.snd)

/-- `Jagged::match_indices` (src/jagged.rs): all disjoint matches of a
pattern, starting the search at the origin. -/
def match_indices [DecidableEq α] (j : Jagged α) (pat : List α) : List Index2 :=
  matchIndicesFrom j pat (fuelFor j) (some ⟨0, 0⟩)

/-- The pairs a full forward traversal yields while inside one row: an empty
row contributes a single absent element at column 0, a non-empty row one
present element per column. -/
def rowTrace (r : Nat) (L : List α) : List (Option α × Index2) :=
  if L.isEmpty then [(none, ⟨r, 0⟩)]
  else (List.range' 0 L.length).map fun k => (L.get? k, ⟨r, k⟩)

/-- The pairs a full forward traversal yields from row `r` on, given the rows
from `r` on. -/
def rowsTrace : Nat → List (List α) → List (Option α × Index2)
  | _, [] => []
  | r, L :: rest => rowTrace r L ++ rowsTrace (r + 1) rest

/-- The number of yields a traversal of the given rows takes, padded by one
per row (an empty row still yields once). -/
def weight (rows : List (List α)) : Nat := (rows.map fun l => l.length + 1).sum

end Jagged

/-! ## Basic lemmas about lookup and bounds -/

namespace Jagged

variable {α : Type}

theorem len_col_getD (j : Jagged α) (r : Nat) :
    (j.len_col r).getD 0 = (j.rowAt r).length := by
  unfold len_col rowAt
  cases j.data.get? r <;> simp

theorem get_eq_rowAt (j : Jagged α) (p : Index2) :
    j.get p = (j.rowAt p.row).get? p.col := by
  unfold get rowAt
  cases j.data.get? p.row <;> simp

theorem rowAt_length_of_lt (j : Jagged α) {r : Nat} (h : r < j.len) :
    j.data.get? r = some (j.rowAt r) := by
  unfold rowAt
  cases hg : j.data.get? r with
  | none => exact absurd (List.get?_eq_none.mp hg) (by unfold len at h; omega)
  | some l => simp

theorem next_step_last (j : Jagged α) (p : Index2)
    (h1 : j.is_last_row p = true) (h2 : j.is_last_col p = true) :
    j.next p = none := by
  unfold Jagged.next
  rw [h1, h2]

theorem next_step_row (j : Jagged α) (p : Index2)
    (h1 : j.is_last_row p = false) (h2 : j.is_last_col p = true) :
    j.next p = some (j.get ⟨p.row + 1, 0⟩, ⟨p.row + 1, 0⟩) := by
  unfold Jagged.next
  rw [h1, h2]
  cases hg : j.get ⟨p.row + 1, 0⟩ <;> simp [hg]

theorem next_step_col (j : Jagged α) (p : Index2)
    (h2 : j.is_last_col p = false) :
    j.next p = (j.get ⟨p.row, p.col + 1⟩).map
      (fun v => (some v, ⟨p.row, p.col + 1⟩)) := by
  unfold Jagged.next
  cases h1 : j.is_last_row p <;> rw [h2]

theorem prev_step_first (j : Jagged α) (p : Index2)
    (h1 : j.is_first_row p = true) (h2 : j.is_first_col p = true) :
    j.prev p = none := by
  unfold Jagged.prev
  rw [h1, h2]

theorem prev_step_row (j : Jagged α) (p : Index2)
    (h1 : j.is_first_row p = false) (h2 : j.is_first_col p = true) :
    j.prev p = some (j.get ⟨p.row - 1, (j.rowAt (p.row - 1)).length - 1⟩,
      ⟨p.row - 1, (j.rowAt (p.row - 1)).length - 1⟩) := by
  unfold Jagged.prev
  rw [h1, h2]
  cases hg : j.get ⟨p.row - 1, (j.rowAt (p.row - 1)).length - 1⟩ <;> simp [hg]

theorem prev_step_col (j : Jagged α) (p : Index2)
    (h2 : j.is_first_col p = false) :
    j.prev p = (j.get ⟨p.row, p.col - 1⟩).map
      (fun v => (some v, ⟨p.row, p.col - 1⟩)) := by
  unfold Jagged.prev
  cases h1 : j.is_first_row p <;> rw [h2]

theorem get_isSome_iff (j : Jagged α) (p : Index2) :
    (j.get p).isSome ↔ p.row < j.len ∧ p.col < (j.rowAt p.row).length := by
  rw [get_eq_rowAt]
  constructor
  · intro h
    have hc : p.col < (j.rowAt p.row).length := by
      by_contra hc
      rw [List.get?_eq_none.mpr (by omega)] at h
      simp at h
    refine ⟨?_, hc⟩
    by_contra hr
    have : j.data.get? p.row = none := List.get?_eq_none.mpr (by unfold len at hr; omega)
    unfold rowAt at hc
    rw [this] at hc
    simp at hc
  · rintro ⟨_, hc⟩
    cases hg : (j.rowAt p.row).get? p.col with
    | none => exact absurd (List.get?_eq_none.mp hg) (by omega)
    | some v => simp

end Jagged

/-- `out_of_bounds` with the row length spelled out via `rowAt` (shared by
several developments below). -/
theorem out_of_bounds_iff {α : Type} (j : Jagged α) (p : Index2) :
    p.out_of_bounds j ↔
      (p.row ≥ j.len ∨ (p.col ≠ 0 ∧ p.col ≥ (j.rowAt p.row).length)) := by
  unfold Index2.out_of_bounds
  rw [Jagged.len_col_getD]

/-! ## Claim C5: characterization of `out_of_bounds` -/

/-- Claim C5: for every container `j` and position `p`, `p.out_of_bounds j`
is false iff `j.get p` is present or `p.col = 0` and row `p.row` exists;
equivalently it holds exactly when `p.row ≥ len` or `p.col ≠ 0` and
`p.col ≥` the length of row `p.row`. -/
theorem out_of_bounds_characterization_c5 {α : Type} (j : Jagged α) (p : Index2) :
    (¬ p.out_of_bounds j ↔ ((j.get p).isSome ∨ (p.col = 0 ∧ p.row < j.len))) ∧
    (p.out_of_bounds j ↔ (p.row ≥ j.len ∨ (p.col ≠ 0 ∧ p.col ≥ (j.rowAt p.row).length))) := by
  have hgd := Jagged.len_col_getD j p.row
  have hgs := Jagged.get_isSome_iff j p
  unfold Index2.out_of_bounds
  rw [hgd]
  constructor
  · constructor
    · intro h
      push_neg at h
      rcases Nat.eq_zero_or_pos p.col with hc | hc
      · exact Or.inr ⟨hc, by omega⟩
      · exact Or.inl (hgs.mpr ⟨by omega, by have := h.2; omega⟩)
    · rintro (h | ⟨h1, h2⟩)
      · have := hgs.mp h
        push_neg
        exact ⟨by omega, fun _ => by omega⟩
      · push_neg
        exact ⟨by omega, fun hc => absurd h1 hc⟩
  · constructor
    · intro h; exact h
    · intro h; exact h

/-! ## Claim C2: the five-case normalization table of `range_bounds` -/

/-- Claim C2: `range_bounds` implements the five-case table: an included
pair is taken as is; an excluded start (r, c) becomes (r, c+1); an excluded
end at (0, 0) yields no range; an excluded end (r+1, 0) becomes
(r, last valid column of row r); an excluded end (r, c+1) becomes (r, c);
an unbounded start becomes (0, 0) and an unbounded end the container's last
valid position. -/
theorem range_bounds_table_c2 {α : Type} (j : Jagged α) (s e : Bnd)
    (a b p : Index2) (r c : Nat) :
    (j.range_bounds (Bnd.included a) (Bnd.included b) = some (a, b)) ∧
    (j.range_bounds (Bnd.excluded p) e =
      j.range_bounds (Bnd.included ⟨p.row, p.col + 1⟩) e) ∧
    (j.range_bounds s (Bnd.excluded ⟨0, 0⟩) = none) ∧
    (j.range_bounds s (Bnd.excluded ⟨r + 1, 0⟩) =
      j.range_bounds s (Bnd.included ⟨r, j.last_col_index r⟩)) ∧
    (j.range_bounds s (Bnd.excluded ⟨r, c + 1⟩) =
      j.range_bounds s (Bnd.included ⟨r, c⟩)) ∧
    (j.range_bounds Bnd.unbounded e =
      j.range_bounds (Bnd.included ⟨0, 0⟩) e) ∧
    (j.range_bounds s Bnd.unbounded =
      j.range_bounds s
        (Bnd.included ⟨j.last_row_index, j.last_col_index j.last_row_index⟩)) := by
  refine ⟨rfl, ?_, rfl, rfl, ?_, ?_, rfl⟩
  · cases e with
    | included b => rfl
    | excluded b => rfl
    | unbounded => rfl
  · cases r with
    | zero => rfl
    | succ r => rfl
  · cases e with
    | included b => rfl
    | excluded b => rfl
    | unbounded => rfl

/-! ## Claim C6: `remove` returns the named target and fails exactly when
it does not exist -/

/-- Claim C6: position `remove` succeeds iff the element exists (returning
that element and deleting it from its row), row `remove` succeeds iff the
row exists (returning the whole row and deleting it), and both fail fatally
(modelled by `none`) exactly when the named target does not exist. -/
theorem remove_spec_c6 {α : Type} (j : Jagged α) (p : Index2) (r : Nat) :
    ((j.removeAt p).isSome ↔ (j.get p).isSome) ∧
    (∀ v, j.get p = some v →
      j.removeAt p = some (v, ⟨j.data.set p.row ((j.rowAt p.row).eraseIdx p.col)⟩)) ∧
    ((j.removeRow r).isSome ↔ r < j.len) ∧
    (∀ row, j.data.get? r = some row →
      j.removeRow r = some (row, ⟨j.data.eraseIdx r⟩)) := by
  refine ⟨?_, ?_, ?_, ?_⟩
  · unfold Jagged.removeAt Jagged.get
    cases hg : j.data.get? p.row with
    | none => simp
    | some line =>
      cases hc : line.get? p.col with
      | none => rw [List.get?_eq_getElem?] at hc; simp [hc]
      | some v => rw [List.get?_eq_getElem?] at hc; simp [hc]
  · intro v hv
    unfold Jagged.get at hv
    unfold Jagged.removeAt
    cases hg : j.data.get? p.row with
    | none => rw [hg] at hv; simp at hv
    | some line =>
      rw [hg] at hv
      simp only [Option.some_bind] at hv
      rw [List.get?_eq_getElem?] at hv
      have hr : j.rowAt p.row = line := by unfold Jagged.rowAt; rw [hg]; rfl
      simp [hv, hr]
  · unfold Jagged.removeRow
    cases hg : j.data.get? r with
    | none =>
      have := List.get?_eq_none.mp hg
      simp [Jagged.len]
      omega
    | some line =>
      have : r < j.data.length := by
        by_contra hr
        rw [List.get?_eq_none.mpr (by omega)] at hg
        exact Option.noConfusion hg
      simp [Jagged.len, this]
  · intro row hrow
    unfold Jagged.removeRow
    rw [hrow]

/-! ## Claim C10: element insertion -/

/-- Claim C10: inserting a single element at (row, col) is a no-op when the
row does not exist; inserts at the column (shifting the tail) when the row
exists and `col ≤` its length; and fails fatally (modelled by `none`) when
the row exists but `col >` its length. -/
theorem insert_spec_c10 {α : Type} (j : Jagged α) (p : Index2) (x : α) :
    (j.data.get? p.row = none → j.insertElem p x = some j) ∧
    (∀ line, j.data.get? p.row = some line → p.col ≤ line.length →
      j.insertElem p x =
        some ⟨j.data.set p.row (line.take p.col ++ x :: line.drop p.col)⟩) ∧
    (∀ line, j.data.get? p.row = some line → p.col > line.length →
      j.insertElem p x = none) := by
  refine ⟨?_, ?_, ?_⟩
  · intro h
    unfold Jagged.insertElem
    rw [h]
  · intro line hline hcol
    unfold Jagged.insertElem
    rw [hline]
    simp [hcol]
  · intro line hline hcol
    unfold Jagged.insertElem
    rw [hline]
    have h : ¬ p.col ≤ line.length := by omega
    simp [h]

/-- Witness for C10 at concrete inputs: missing row is a no-op, an in-row
column inserts, a column past the row length fails. -/
theorem insert_spec_c10_witness :
    (Jagged.insertElem (⟨[[1]]⟩ : Jagged Nat) ⟨5, 0⟩ 9 = some ⟨[[1]]⟩) ∧
    (Jagged.insertElem (⟨[[1, 2]]⟩ : Jagged Nat) ⟨0, 1⟩ 9 = some ⟨[[1, 9, 2]]⟩) ∧
    (Jagged.insertElem (⟨[[1, 2]]⟩ : Jagged Nat) ⟨0, 5⟩ 9 = none) := by
  refine ⟨?_, ?_, ?_⟩
  · exact (insert_spec_c10 (⟨[[1]]⟩ : Jagged Nat) ⟨5, 0⟩ 9).1 (by decide)
  · exact ((insert_spec_c10 (⟨[[1, 2]]⟩ : Jagged Nat) ⟨0, 1⟩ 9).2.1 [1, 2]
      (by decide) (by decide)).trans (by decide)
  · exact (insert_spec_c10 (⟨[[1, 2]]⟩ : Jagged Nat) ⟨0, 5⟩ 9).2.2 [1, 2]
      (by decide) (by decide)

/-- Witness for C6 at concrete inputs. -/
theorem remove_spec_c6_witness :
    (Jagged.removeAt (⟨[[1, 2], [3]]⟩ : Jagged Nat) ⟨0, 1⟩ = some (2, ⟨[[1], [3]]⟩)) ∧
    (Jagged.removeRow (⟨[[1, 2], [3]]⟩ : Jagged Nat) 1 = some ([3], ⟨[[1, 2]]⟩)) ∧
    (Jagged.removeAt (⟨[[1, 2], [3]]⟩ : Jagged Nat) ⟨0, 7⟩ = none) := by
  refine ⟨?_, ?_, ?_⟩
  · exact ((remove_spec_c6 (⟨[[1, 2], [3]]⟩ : Jagged Nat) ⟨0, 1⟩ 1).2.1 2
      (by decide)).trans (by decide)
  · exact ((remove_spec_c6 (⟨[[1, 2], [3]]⟩ : Jagged Nat) ⟨0, 1⟩ 1).2.2.2 [3]
      (by decide)).trans (by decide)
  · have h := (remove_spec_c6 (⟨[[1, 2], [3]]⟩ : Jagged Nat) ⟨0, 7⟩ 1).1
    exact Option.not_isSome_iff_eq_none.mp (fun hs => by
      have := h.mp hs
      rw [show (Jagged.get (⟨[[1, 2], [3]]⟩ : Jagged Nat) ⟨0, 7⟩) = none from by decide]
        at this
      exact Option.noConfusion (Option.isSome_iff_exists.mp this).choose_spec)

/-! ## Claim C8: `next` and `prev` are inverse single steps -/

/-- Claim C8: from any in-bounds position `p`, if `next` yields a successor
position `q` then `prev` at `q` returns to `p` (with the element found at
`p`); at the very first position of a nonempty container `prev` yields
nothing, and at its very last position `next` yields nothing. -/
theorem next_prev_c8 {α : Type} (j : Jagged α) (p : Index2) :
    (¬ p.out_of_bounds j → ∀ v q, j.next p = some (v, q) →
      j.prev q = some (j.get p, p)) ∧
    (j.data ≠ [] →
      j.prev ⟨0, 0⟩ = none ∧
      j.next ⟨j.last_row_index, j.last_col_index j.last_row_index⟩ = none) := by
  constructor
  · intro hin v q hnext
    have hoob := out_of_bounds_iff j p
    have hrow : p.row < j.len := by
      by_contra hr
      exact hin (hoob.mpr (Or.inl (by omega)))
    have hL := j.rowAt_length_of_lt hrow
    set L := j.rowAt p.row with hLdef
    have hcol : p.col = 0 ∨ p.col < L.length := by
      by_cases hc : p.col = 0
      · exact Or.inl hc
      · right
        by_contra hcl
        exact hin (hoob.mpr (Or.inr ⟨hc, by omega⟩))
    cases h2 : j.is_last_col p with
    | false =>
      -- within-row step to (p.row, p.col + 1)
      have hlen : p.col < L.length - 1 := by
        unfold Jagged.is_last_col at h2
        rw [hL] at h2
        simp at h2
        omega
      rw [j.next_step_col p h2] at hnext
      have hget1 : j.get ⟨p.row, p.col + 1⟩ = L.get? (p.col + 1) := by
        rw [Jagged.get_eq_rowAt]
      cases hg : L.get? (p.col + 1) with
      | none =>
        have := List.get?_eq_none.mp hg
        omega
      | some w =>
        rw [hget1, hg] at hnext
        simp at hnext
        obtain ⟨hv, hq⟩ := hnext
        subst hq
        have hfc : j.is_first_col ⟨p.row, p.col + 1⟩ = false := by
          unfold Jagged.is_first_col
          cases j.data.get? (Index2.mk p.row (p.col + 1)).row <;> simp
        rw [j.prev_step_col _ hfc]
        have hqp : (⟨(Index2.mk p.row (p.col + 1)).row,
            (Index2.mk p.row (p.col + 1)).col - 1⟩ : Index2) = p := by
          show (⟨p.row, p.col + 1 - 1⟩ : Index2) = p
          rw [Nat.add_sub_cancel]
        rw [hqp]
        have hgetp : j.get p = some (L.get ⟨p.col, by omega⟩) := by
          rw [Jagged.get_eq_rowAt, ← hLdef,
            List.get?_eq_get (by omega : p.col < L.length)]
        rw [hgetp]
        rfl
    | true =>
      -- step to the start of the next row
      cases hlr : j.is_last_row p with
      | true =>
        rw [j.next_step_last p hlr h2] at hnext
        exact Option.noConfusion hnext
      | false =>
        have hne : j.data ≠ [] := by
          intro h
          unfold Jagged.len at hrow
          rw [h] at hrow
          simp at hrow
        have hnlast : p.row ≠ j.data.length - 1 := by
          unfold Jagged.is_last_row at hlr
          simp [hne] at hlr
          exact hlr
        have hrow1 : p.row + 1 < j.len := by unfold Jagged.len at hrow ⊢; omega
        rw [j.next_step_row p hlr h2] at hnext
        simp only [Option.some.injEq, Prod.mk.injEq] at hnext
        obtain ⟨hv, hq⟩ := hnext
        subst hq
        have hcollast : p.col = L.length - 1 := by
          unfold Jagged.is_last_col at h2
          rw [hL] at h2
          simp at h2
          omega
        have hfr : j.is_first_row ⟨p.row + 1, 0⟩ = false := by
          unfold Jagged.is_first_row
          simp
        have hfc : j.is_first_col ⟨p.row + 1, 0⟩ = true := by
          unfold Jagged.is_first_col
          rw [j.rowAt_length_of_lt hrow1]
          rfl
        rw [j.prev_step_row _ hfr hfc]
        have hpr : (⟨(Index2.mk (p.row + 1) 0).row - 1,
            (j.rowAt ((Index2.mk (p.row + 1) 0).row - 1)).length - 1⟩ : Index2) = p := by
          show (⟨p.row + 1 - 1, (j.rowAt (p.row + 1 - 1)).length - 1⟩ : Index2) = p
          rw [Nat.add_sub_cancel, ← hLdef]
          have : L.length - 1 = p.col := by omega
          rw [this]
        rw [hpr]
  · intro hne
    have hlen0 : 0 < j.len := by
      unfold Jagged.len
      exact List.length_pos.mpr hne
    constructor
    · have hfr : j.is_first_row ⟨0, 0⟩ = true := by
        unfold Jagged.is_first_row
        simp [hne]
      have hfc : j.is_first_col ⟨0, 0⟩ = true := by
        unfold Jagged.is_first_col
        rw [j.rowAt_length_of_lt hlen0]
        rfl
      exact j.prev_step_first _ hfr hfc
    · have hlast : j.last_row_index < j.len := by
        unfold Jagged.last_row_index
        omega
      have hlr : j.is_last_row ⟨j.last_row_index, j.last_col_index j.last_row_index⟩
          = true := by
        unfold Jagged.is_last_row Jagged.last_row_index Jagged.len
        simp [hne]
      have hlc : j.is_last_col ⟨j.last_row_index, j.last_col_index j.last_row_index⟩
          = true := by
        unfold Jagged.is_last_col
        rw [j.rowAt_length_of_lt hlast]
        simp only [decide_eq_true_eq]
        unfold Jagged.last_col_index
        rw [j.rowAt_length_of_lt hlast]
      exact j.next_step_last _ hlr hlc

/-! ## Claim C1: `extract` never fails, for any range on any container -/

theorem drainRange_some {α : Type} (l : List α) (a b : Nat) (h1 : a ≤ b)
    (h2 : b ≤ l.length) :
    Jagged.drainRange l a b = some ((l.drop a).take (b - a), l.take a ++ l.drop b) := by
  unfold Jagged.drainRange
  rw [if_pos ⟨h1, h2⟩]

theorem get?_set_ne {α : Type} (l : List α) (i n : Nat) (a : α) (h : i ≠ n) :
    (l.set i a).get? n = l.get? n := by
  induction l generalizing i n with
  | nil => rfl
  | cons b t ih =>
    cases i with
    | zero =>
      cases n with
      | zero => exact absurd rfl h
      | succ n => rfl
    | succ i =>
      cases n with
      | zero => rfl
      | succ n => exact ih i n (fun hh => h (by omega))

theorem last_col_index_of_lt {α : Type} (j : Jagged α) {r : Nat}
    (h : r < j.data.length) :
    j.last_col_index r = (j.rowAt r).length - 1 := by
  unfold Jagged.last_col_index
  rw [j.rowAt_length_of_lt h]

theorem extractCore_isSome {α : Type} (j : Jagged α) (start end1 : Index2)
    (soob eoob : Bool) (drained0 : List (List α))
    (hsr : start.row < j.data.length)
    (hsc : start.col ≤ (j.rowAt start.row).length - 1)
    (her : end1.row < j.data.length)
    (hec : end1.col ≤ (j.rowAt end1.row).length - 1) :
    (j.extractCore start end1 soob eoob drained0).isSome = true := by
  have hRl := j.rowAt_length_of_lt hsr
  have hEl := j.rowAt_length_of_lt her
  have hmec := last_col_index_of_lt j her
  unfold Jagged.extractCore
  simp only [hmec]
  by_cases hrej : i2lt end1 start ∨ (start = end1 ∧ soob = true)
  · rw [if_pos hrej]
    rfl
  rw [if_neg hrej]
  have hworow : ¬ end1.row < start.row :=
    fun h => hrej (Or.inl (show i2lt end1 start from Or.inl h))
  have hwocol : ¬ (end1.row = start.row ∧ end1.col < start.col) :=
    fun h => hrej (Or.inl (show i2lt end1 start from Or.inr h))
  by_cases hex : end1.col ≥ (j.rowAt end1.row).length - 1
  case pos =>
    simp only [if_pos hex]
    cases soob with
    | false =>
      simp only [eq_self_iff_true, and_true, true_and, and_false, false_and, and_self,
        Bool.false_eq_true, Bool.true_eq_false, if_true, if_false, or_true, true_or,
        or_false, false_or, Option.isSome_some, Option.isSome_none, Option.some_ne_none]
      by_cases hc0 : start.col = 0
      case pos =>
        simp only [if_pos hc0, eq_self_iff_true, and_true, true_and, if_true, if_false,
          or_false, false_or, Option.isSome_none, Bool.false_eq_true]
        by_cases heq : start.row = end1.row
        case pos =>
          simp only [if_pos heq]
          rw [drainRange_some j.data start.row (start.row + 1) (by omega) (by omega)]
          rfl
        case neg =>
          simp only [if_neg heq]
          have hlt : start.row < end1.row := by omega
          rw [drainRange_some j.data start.row (end1.row + 1) (by omega) (by omega)]
          rfl
      case neg =>
        simp only [if_neg hc0, eq_self_iff_true, and_true, true_and, and_false, false_and,
          if_true, if_false, or_false, false_or, or_true, true_or, Option.isSome_some,
          Option.isSome_none, Option.some_ne_none, Bool.false_eq_true]
        have hR2 : 2 ≤ (j.rowAt start.row).length := by omega
        by_cases heq : start.row = end1.row
        case pos =>
          have hE' : j.rowAt start.row = j.rowAt end1.row := by rw [heq]
          have hcols : start.col ≤ end1.col := by
            rcases Nat.lt_or_ge end1.col start.col with hcl | hge
            · exact absurd ⟨heq.symm, hcl⟩ hwocol
            · omega
          simp only [if_pos heq]
          rw [hRl]
          simp only []
          rw [drainRange_some (j.rowAt start.row) start.col (end1.col + 1)
            (by omega)
            (by
              have hR2' : 2 ≤ (j.rowAt end1.row).length := by rw [← hE']; exact hR2
              rw [hE']
              omega)]
          rfl
        case neg =>
          simp only [if_neg heq]
          have hlt : start.row < end1.row := by omega
          rw [hRl]
          simp only []
          rw [drainRange_some (j.rowAt start.row) start.col (j.rowAt start.row).length
            (by omega) (le_refl _)]
          simp only []
          rw [drainRange_some (j.data.set start.row
              ((j.rowAt start.row).take start.col ++
                (j.rowAt start.row).drop (j.rowAt start.row).length))
            (start.row + 1) (end1.row + 1) (by omega) (by rw [List.length_set]; omega)]
          rfl
    | true =>
      simp only [eq_self_iff_true, and_true, true_and, and_false, false_and, and_self,
        Bool.false_eq_true, Bool.true_eq_false, if_true, if_false, or_true, true_or,
        or_false, false_or, Option.isSome_some, Option.isSome_none, Option.some_ne_none]
      by_cases heq : start.row = end1.row
      case pos =>
        simp only [if_pos heq]
        rw [drainRange_some j.data start.row (start.row + 1) (by omega) (by omega)]
        rfl
      case neg =>
        simp only [if_neg heq]
        have hlt : start.row < end1.row := by omega
        rw [drainRange_some j.data (start.row + 1) (end1.row + 1) (by omega) (by omega)]
        rfl
  case neg =>
    simp only [if_neg hex]
    have hE2 : end1.col + 1 < (j.rowAt end1.row).length := by omega
    cases soob with
    | false =>
      simp only [eq_self_iff_true, and_true, true_and, and_false, false_and, and_self,
        Bool.false_eq_true, Bool.true_eq_false, if_true, if_false, or_true, true_or,
        or_false, false_or, Option.isSome_some, Option.isSome_none, Option.some_ne_none]
      by_cases hc0 : start.col = 0
      case pos =>
        simp only [if_pos hc0, eq_self_iff_true, and_true, true_and, if_true, if_false,
          or_false, false_or, Option.isSome_none, Bool.false_eq_true]
        by_cases heq : start.row = end1.row
        case pos =>
          have hE' : j.rowAt start.row = j.rowAt end1.row := by rw [heq]
          simp only [if_pos heq]
          rw [hRl]
          simp only []
          rw [drainRange_some (j.rowAt start.row) start.col (end1.col + 1)
            (by omega) (by rw [hE']; omega)]
          rfl
        case neg =>
          simp only [if_neg heq]
          have hlt : start.row < end1.row := by omega
          have hu1 : end1.row - 1 + 1 = end1.row := by omega
          rw [drainRange_some j.data start.row (end1.row - 1 + 1) (by omega) (by omega)]
          simp only []
          have hnum : ((j.data.drop start.row).take (end1.row - 1 + 1 - start.row)).length
              = end1.row - start.row := by
            rw [List.length_take, List.length_drop]
            omega
          simp only [hnum]
          have hidx : end1.row - (end1.row - start.row) = start.row := by omega
          rw [hidx]
          have hget2 : (j.data.take start.row ++ j.data.drop (end1.row - 1 + 1)).get?
              start.row = some (j.rowAt end1.row) := by
            rw [List.get?_append_right (by rw [List.length_take]; omega)]
            rw [List.length_take, min_eq_left (by omega), Nat.sub_self]
            rw [List.get?_drop, hu1]
            exact hEl
          rw [hget2]
          simp only []
          rw [drainRange_some (j.rowAt end1.row) 0 (end1.col + 1) (by omega) (by omega)]
          rfl
      case neg =>
        simp only [if_neg hc0, eq_self_iff_true, and_true, true_and, and_false, false_and,
          if_true, if_false, or_false, false_or, or_true, true_or, Option.isSome_some,
          Option.isSome_none, Option.some_ne_none, Bool.false_eq_true]
        have hR2 : 2 ≤ (j.rowAt start.row).length := by omega
        by_cases heq : start.row = end1.row
        case pos =>
          have hE' : j.rowAt start.row = j.rowAt end1.row := by rw [heq]
          have hcols : start.col ≤ end1.col := by
            rcases Nat.lt_or_ge end1.col start.col with hcl | hge
            · exact absurd ⟨heq.symm, hcl⟩ hwocol
            · omega
          simp only [if_pos heq]
          rw [hRl]
          simp only []
          rw [drainRange_some (j.rowAt start.row) start.col (end1.col + 1)
            (by omega) (by rw [hE']; omega)]
          rfl
        case neg =>
          simp only [if_neg heq]
          have hlt : start.row < end1.row := by omega
          rw [hRl]
          simp only []
          rw [drainRange_some (j.rowAt start.row) start.col (j.rowAt start.row).length
            (by omega) (le_refl _)]
          simp only []
          have hu1 : end1.row - 1 + 1 = end1.row := by omega
          rw [drainRange_some (j.data.set start.row
              ((j.rowAt start.row).take start.col ++
                (j.rowAt start.row).drop (j.rowAt start.row).length))
            (start.row + 1) (end1.row - 1 + 1) (by omega)
            (by rw [List.length_set]; omega)]
          simp only []
          have hnum : (((j.data.set start.row
              ((j.rowAt start.row).take start.col ++
                (j.rowAt start.row).drop (j.rowAt start.row).length)).drop
                  (start.row + 1)).take
              (end1.row - 1 + 1 - (start.row + 1))).length = end1.row - (start.row + 1) := by
            rw [List.length_take, List.length_drop, List.length_set]
            omega
          simp only [hnum]
          have hidx : end1.row - (end1.row - (start.row + 1)) = start.row + 1 := by omega
          rw [hidx]
          have hget2 : ((j.data.set start.row
              ((j.rowAt start.row).take start.col ++
                (j.rowAt start.row).drop (j.rowAt start.row).length)).take
                  (start.row + 1) ++
              (j.data.set start.row
                ((j.rowAt start.row).take start.col ++
                  (j.rowAt start.row).drop (j.rowAt start.row).length)).drop
                    (end1.row - 1 + 1)).get?
              (start.row + 1) = some (j.rowAt end1.row) := by
            rw [List.get?_append_right (by rw [List.length_take, List.length_set]; omega)]
            rw [List.length_take, min_eq_left (by rw [List.length_set]; omega), Nat.sub_self]
            rw [List.get?_drop, hu1]
            rw [get?_set_ne _ _ _ _ (by omega)]
            exact hEl
          rw [hget2]
          simp only []
          rw [drainRange_some (j.rowAt end1.row) 0 (end1.col + 1) (by omega) (by omega)]
          rfl
    | true =>
      simp only [eq_self_iff_true, and_true, true_and, and_false, false_and, and_self,
        Bool.false_eq_true, Bool.true_eq_false, if_true, if_false, or_true, true_or,
        or_false, false_or, Option.isSome_some, Option.isSome_none, Option.some_ne_none]
      by_cases heq : start.row = end1.row
      case pos =>
        have hE' : j.rowAt start.row = j.rowAt end1.row := by rw [heq]
        have hcols : start.col ≤ end1.col := by
          rcases Nat.lt_or_ge end1.col start.col with hcl | hge
          · exact absurd ⟨heq.symm, hcl⟩ hwocol
          · omega
        simp only [if_pos heq]
        rw [hRl]
        simp only []
        rw [drainRange_some (j.rowAt start.row) start.col (end1.col + 1)
          (by omega) (by rw [hE']; omega)]
        rfl
      case neg =>
        simp only [if_neg heq]
        have hlt : start.row < end1.row := by omega
        have hu1 : end1.row - 1 + 1 = end1.row := by omega
        rw [drainRange_some j.data (start.row + 1) (end1.row - 1 + 1)
          (by omega) (by omega)]
        simp only []
        have hnum : ((j.data.drop (start.row + 1)).take
            (end1.row - 1 + 1 - (start.row + 1))).length = end1.row - (start.row + 1) := by
          rw [List.length_take, List.length_drop]
          omega
        simp only [hnum]
        have hidx : end1.row - (end1.row - (start.row + 1)) = start.row + 1 := by omega
        rw [hidx]
        have hget2 : (j.data.take (start.row + 1) ++ j.data.drop (end1.row - 1 + 1)).get?
            (start.row + 1) = some (j.rowAt end1.row) := by
          rw [List.get?_append_right (by rw [List.length_take]; omega)]
          rw [List.length_take, min_eq_left (by omega), Nat.sub_self]
          rw [List.get?_drop, hu1]
          exact hEl
        rw [hget2]
        simp only []
        rw [drainRange_some (j.rowAt end1.row) 0 (end1.col + 1) (by omega) (by omega)]
        rfl

theorem extractGo_isSome {α : Type} (j : Jagged α) (start0 end0 : Index2)
    (hlen : 0 < j.data.length) :
    (j.extractGo start0 end0).isSome = true := by
  unfold Jagged.extractGo
  by_cases h1 : start0.row > j.last_row_index
  · rw [if_pos h1]
    rfl
  rw [if_neg h1]
  have hs0 : start0.row < j.data.length := by
    unfold Jagged.last_row_index Jagged.len at h1
    omega
  have hR := j.rowAt_length_of_lt hs0
  have hlc : j.len_col start0.row = some (j.rowAt start0.row).length := by
    unfold Jagged.len_col
    rw [hR]
    rfl
  simp only [hlc]
  have hlr : j.last_row_index < j.data.length := by
    unfold Jagged.last_row_index Jagged.len
    omega
  have hlci : ∀ r, r < j.data.length →
      j.last_col_index r ≤ (j.rowAt r).length - 1 :=
    fun r hr => le_of_eq (last_col_index_of_lt j hr)
  by_cases hso : start0.col > (j.rowAt start0.row).length - 1
  case pos =>
    rw [decide_eq_true hso]
    simp only [eq_self_iff_true, if_true, if_false, Bool.true_eq_false,
      Bool.false_eq_true, Index2.row_mk, Index2.col_mk]
    rw [if_neg h1]
    by_cases he1 : end0.row > j.last_row_index
    · rw [if_pos he1]
      exact extractCore_isSome j _ _ _ _ _ hs0 (by simp) hlr (by
        simp only [Index2.row_mk, Index2.col_mk]
        exact hlci _ hlr)
    rw [if_neg he1]
    have he0 : end0.row < j.data.length := by
      unfold Jagged.last_row_index Jagged.len at he1
      omega
    by_cases he2 : end0.col > j.last_col_index end0.row
    · rw [if_pos he2]
      exact extractCore_isSome j _ _ _ _ _ hs0 (by simp) he0 (by
        simp only [Index2.row_mk, Index2.col_mk]
        exact hlci _ he0)
    · rw [if_neg he2]
      exact extractCore_isSome j _ _ _ _ _ hs0 (by simp) he0 (by
        show end0.col ≤ (j.rowAt end0.row).length - 1
        have := last_col_index_of_lt j he0
        omega)
  case neg =>
    rw [decide_eq_false hso]
    simp only [Bool.false_eq_true, if_false]
    rw [if_neg h1]
    by_cases he1 : end0.row > j.last_row_index
    · rw [if_pos he1]
      exact extractCore_isSome j _ _ _ _ _ hs0 (by omega) hlr (by
        simp only [Index2.row_mk, Index2.col_mk]
        exact hlci _ hlr)
    rw [if_neg he1]
    have he0 : end0.row < j.data.length := by
      unfold Jagged.last_row_index Jagged.len at he1
      omega
    by_cases he2 : end0.col > j.last_col_index end0.row
    · rw [if_pos he2]
      exact extractCore_isSome j _ _ _ _ _ hs0 (by omega) he0 (by
        simp only [Index2.row_mk, Index2.col_mk]
        exact hlci _ he0)
    · rw [if_neg he2]
      exact extractCore_isSome j _ _ _ _ _ hs0 (by omega) he0 (by
        show end0.col ≤ (j.rowAt end0.row).length - 1
        have := last_col_index_of_lt j he0
        omega)

/-- Claim C1: for every container and every combination of range bounds,
`extract` returns a result (never hits a slice-bound failure). -/
theorem extract_no_failure_c1 {α : Type} (j : Jagged α) (s e : Bnd) :
    (j.extract s e).isSome = true := by
  unfold Jagged.extract
  by_cases hemp : j.data.isEmpty = true
  · rw [if_pos hemp]
    rfl
  rw [if_neg hemp]
  have hne : j.data ≠ [] := fun h => hemp (by rw [h]; rfl)
  have hlen : 0 < j.data.length := List.length_pos.mpr hne
  cases hrb : j.range_bounds s e with
  | none => rfl
  | some se0 =>
    obtain ⟨start0, end0⟩ := se0
    show (j.extractGo start0 end0).isSome = true
    exact extractGo_isSome j start0 end0 hlen

/-! ## Claim C3: extracting the full range drains the whole container -/

/-- Claim C3: `extract` over the full unbounded range returns a container
equal to the original contents and leaves the source empty, and re-applying
the drained data to the emptied source via `append` reconstructs the
original container. -/
theorem extract_full_range_c3 {α : Type} (j : Jagged α) :
    j.extract Bnd.unbounded Bnd.unbounded = some (j, ⟨[]⟩) ∧
    ((⟨[]⟩ : Jagged α).append j).1 = j := by
  refine ⟨?_, rfl⟩
  obtain ⟨d⟩ := j
  cases d with
  | nil => rfl
  | cons L rest =>
    have hlr : (⟨L :: rest⟩ : Jagged α).last_row_index = rest.length := by
      simp [Jagged.last_row_index, Jagged.len]
    show Jagged.extractGo (⟨L :: rest⟩ : Jagged α) ⟨0, 0⟩
        ⟨(⟨L :: rest⟩ : Jagged α).last_row_index,
          (⟨L :: rest⟩ : Jagged α).last_col_index
            (⟨L :: rest⟩ : Jagged α).last_row_index⟩ = some (⟨L :: rest⟩, ⟨[]⟩)
    unfold Jagged.extractGo
    rw [if_neg (Nat.not_lt_zero _)]
    simp only [show (⟨L :: rest⟩ : Jagged α).len_col (Index2.mk 0 0).row =
      some L.length from rfl, Index2.row_mk, Index2.col_mk]
    rw [show (decide ((0 : Nat) > L.length - 1)) = false from by simp]
    simp only [Bool.false_eq_true, if_false, Index2.row_mk, Index2.col_mk]
    rw [if_neg (Nat.not_lt_zero _)]
    rw [if_neg (lt_irrefl _)]
    rw [if_neg (lt_irrefl _)]
    simp only [Index2.row_mk, Index2.col_mk]
    unfold Jagged.extractCore
    rw [if_neg (by
      rintro (h | ⟨-, h⟩)
      · unfold i2lt at h
        simp at h
      · exact Bool.noConfusion h)]
    simp only [and_self, if_true, ge_iff_le, le_refl, and_true, Bool.false_eq_true,
      if_false, Option.isSome_none, or_self, Index2.row_mk, Index2.col_mk]
    by_cases hrest : rest = []
    · subst hrest
      rw [if_pos (by simpa using hlr.symm)]
      rw [show Jagged.drainRange (L :: ([] : List (List α))) 0 (0 + 1) =
        some ([L], []) from by unfold Jagged.drainRange; simp]
      simp
    · have hlr0 : (⟨L :: rest⟩ : Jagged α).last_row_index ≠ 0 := by
        rw [hlr]
        intro h
        exact hrest (List.length_eq_zero.mp h)
      rw [if_neg (fun h => hlr0 h.symm)]
      rw [if_neg (fun h => hlr0 h.symm)]
      have hdr : Jagged.drainRange (L :: rest) 0
          ((⟨L :: rest⟩ : Jagged α).last_row_index + 1) = some (L :: rest, []) := by
        unfold Jagged.drainRange
        rw [if_pos ⟨Nat.zero_le _, by simp [hlr]⟩]
        rw [List.drop_zero, List.take_zero, Nat.sub_zero,
          List.take_of_length_le (by simp [hlr]),
          List.drop_eq_nil_of_le (by simp [hlr])]
        rfl
      rw [hdr]
      simp

/-- Witness for C8 at a concrete input: stepping forward from (0,1) in
[[1,2],[3]] reaches (1,0), and stepping back returns to (0,1). -/
theorem next_prev_c8_witness :
    Jagged.prev (⟨[[1, 2], [3]]⟩ : Jagged Nat) ⟨1, 0⟩ = some (some 2, ⟨0, 1⟩) := by
  have h := (next_prev_c8 (⟨[[1, 2], [3]]⟩ : Jagged Nat) ⟨0, 1⟩).1 (by decide)
    (some 3) ⟨1, 0⟩ (by decide)
  exact h.trans (by decide)


/-! ## Iterator stepping lemmas -/

namespace Jagged

variable {α : Type}

theorem iterList_stop (j : Jagged α) (fuel : Nat) (st : IterSt) (h : st.stop = true) :
    iterList j fuel st = [] := by
  cases fuel with
  | zero => rfl
  | succ n =>
    show (if st.stop = true ∨ (⟨st.row, st.col⟩ : Index2).out_of_bounds j then ([] : List (Option α × Index2)) else _) = []
    rw [if_pos (Or.inl h)]

theorem iterList_of_oob (j : Jagged α) (fuel : Nat) (st : IterSt)
    (h : (⟨st.row, st.col⟩ : Index2).out_of_bounds j) :
    iterList j fuel st = [] := by
  cases fuel with
  | zero => rfl
  | succ n =>
    show (if st.stop = true ∨ (⟨st.row, st.col⟩ : Index2).out_of_bounds j then ([] : List (Option α × Index2)) else _) = []
    rw [if_pos (Or.inr h)]

theorem iterList_step_some (j : Jagged α) (fuel r c : Nat) (so : Option Index2)
    (w : Option α) (q : Index2)
    (hoob : ¬ (⟨r, c⟩ : Index2).out_of_bounds j)
    (hnext : j.next ⟨r, c⟩ = some (w, q))
    (hso : so ≠ some ⟨r, c⟩) :
    iterList j (fuel + 1) ⟨r, c, so, false⟩ =
      (j.get ⟨r, c⟩, (⟨r, c⟩ : Index2)) :: iterList j fuel ⟨q.row, q.col, so, false⟩ := by
  show (if (false = true) ∨ (⟨r, c⟩ : Index2).out_of_bounds j then _ else _) = _
  rw [if_neg (by simp [hoob])]
  simp only [hnext]
  rw [if_neg hso]

theorem iterList_step_last (j : Jagged α) (fuel r c : Nat) (so : Option Index2)
    (hoob : ¬ (⟨r, c⟩ : Index2).out_of_bounds j)
    (hnext : j.next ⟨r, c⟩ = none) :
    iterList j (fuel + 1) ⟨r, c, so, false⟩ = [(j.get ⟨r, c⟩, (⟨r, c⟩ : Index2))] := by
  show (if (false = true) ∨ (⟨r, c⟩ : Index2).out_of_bounds j then _ else _) = _
  rw [if_neg (by simp [hoob])]
  simp only [hnext]
  by_cases hq : so = some (⟨r, c⟩ : Index2)
  · rw [if_pos hq, iterList_stop]
    rfl
  · rw [if_neg hq, iterList_stop]
    rfl

theorem pushLastElem_cons (x : List α) (l : List (List α)) (v : α) (hl : l ≠ []) :
    pushLastElem (x :: l) v = x :: pushLastElem l v := by
  cases l with
  | nil => exact absurd rfl hl
  | cons y t => rfl

theorem pushLastElem_append (acc : List (List α)) (B : List α) (v : α) :
    pushLastElem (acc ++ [B]) v = acc ++ [B ++ [v]] := by
  induction acc with
  | nil => rfl
  | cons h t ih =>
    rw [List.cons_append, pushLastElem_cons _ _ _ (by simp), ih, List.cons_append]

theorem foldl_row_chunk (L : List α) (r : Nat) :
    ∀ (n c : Nat) (acc0 : List (List α)), c + n = L.length →
      List.foldl fromIterStep (acc0 ++ [L.take c], r)
        ((List.range' c n).map fun k => (L.get? k, (⟨r, k⟩ : Index2))) = (acc0 ++ [L], r) := by
  intro n
  induction n with
  | zero =>
    intro c acc0 hc
    simp only [List.range', List.map_nil, List.foldl_nil]
    rw [show c = L.length by omega, List.take_length]
  | succ m ih =>
    intro c acc0 hc
    have hclt : c < L.length := by omega
    cases hv : L.get? c with
    | none => exact absurd (List.get?_eq_none.mp hv) (by omega)
    | some v =>
      rw [List.range'_succ, List.map_cons, List.foldl_cons]
      have hstep : fromIterStep (acc0 ++ [L.take c], r) (L.get? c, (⟨r, c⟩ : Index2)) =
          (acc0 ++ [L.take (c + 1)], r) := by
        unfold fromIterStep
        rw [if_neg (by simp)]
        rw [hv]
        simp only []
        rw [pushLastElem_append]
        have hgc : L[c]? = some v := by rw [← List.get?_eq_getElem?]; exact hv
        rw [List.take_succ, hgc]
        rfl
      rw [hstep]
      exact ih (c + 1) acc0 (by omega)

theorem foldl_rowTrace (r : Nat) (L : List α) (acc : List (List α)) (prev : Nat)
    (h : acc = [] ∨ prev ≠ r) :
    List.foldl fromIterStep (acc, prev) (rowTrace r L) = (acc ++ [L], r) := by
  have hopen : ∀ (p : Option α × Index2), p.2 = ⟨r, 0⟩ →
      fromIterStep (acc, prev) p =
        (match p.1 with
          | some v => (pushLastElem (acc ++ [[]]) v, r)
          | none => (acc ++ [[]], r)) := by
    intro p hp
    unfold fromIterStep
    rw [if_pos ?side]
    case side =>
      rcases h with h | h
      · exact Or.inl (by simp [h])
      · exact Or.inr (by rw [hp]; simpa using (Ne.symm h))
    rw [hp]
  cases L with
  | nil =>
    unfold rowTrace
    rw [if_pos (by rfl)]
    rw [List.foldl_cons, List.foldl_nil, hopen (none, ⟨r, 0⟩) rfl]
  | cons a t =>
    unfold rowTrace
    rw [if_neg (by simp)]
    have hlen : (a :: t).length = t.length + 1 := by simp
    rw [hlen, List.range'_succ, List.map_cons, List.foldl_cons]
    have h0 : (a :: t).get? 0 = some a := rfl
    rw [h0, hopen (some a, ⟨r, 0⟩) rfl]
    show List.foldl fromIterStep (pushLastElem (acc ++ [[]]) a, r) _ = _
    rw [pushLastElem_append]
    have h1 : ([] : List α) ++ [a] = (a :: t).take 1 := by simp
    rw [h1]
    simp only [Nat.zero_add]
    have h2 := foldl_row_chunk (a :: t) r t.length 1 acc
      (by rw [List.length_cons, Nat.add_comm])
    exact h2

theorem foldl_rowsTrace :
    ∀ (rest : List (List α)) (acc : List (List α)) (r prev : Nat),
      (acc = [] ∨ prev ≠ r) →
      (List.foldl fromIterStep (acc, prev) (rowsTrace r rest)).1 = acc ++ rest := by
  intro rest
  induction rest with
  | nil => intro acc r prev _; simp [rowsTrace]
  | cons L rest ih =>
    intro acc r prev h
    unfold rowsTrace
    rw [List.foldl_append, foldl_rowTrace r L acc prev h]
    rw [ih (acc ++ [L]) (r + 1) r (Or.inr (by omega))]
    simp

theorem collectJ_rowsTrace (D : List (List α)) :
    collectJ (rowsTrace 0 D) = (⟨D⟩ : Jagged α) := by
  unfold collectJ
  rw [foldl_rowsTrace D [] 0 0 (Or.inl rfl)]
  rfl

theorem get_mk_eq (j : Jagged α) (r c : Nat) (L : List α)
    (hL : j.data.get? r = some L) : j.get ⟨r, c⟩ = L.get? c := by
  simp only [Jagged.get, Index2.row_mk, Index2.col_mk, hL, Option.some_bind]

theorem rowAt_mk_eq (j : Jagged α) (r : Nat) (L : List α)
    (hL : j.data.get? r = some L) : j.rowAt r = L := by
  unfold rowAt
  rw [hL]
  rfl

theorem not_oob_of_lt (j : Jagged α) (r c : Nat) (L : List α)
    (hL : j.data.get? r = some L) (hc : c < L.length) :
    ¬ (⟨r, c⟩ : Index2).out_of_bounds j := by
  obtain ⟨hr, -⟩ := List.get?_eq_some.mp hL
  unfold Index2.out_of_bounds
  simp only [Index2.row_mk, Index2.col_mk]
  rw [len_col_getD, rowAt_mk_eq j r L hL]
  unfold len
  intro h
  rcases h with h | ⟨-, h⟩ <;> omega

theorem not_oob_row (j : Jagged α) (r : Nat) (L : List α)
    (hL : j.data.get? r = some L) :
    ¬ (⟨r, 0⟩ : Index2).out_of_bounds j := by
  obtain ⟨hr, -⟩ := List.get?_eq_some.mp hL
  unfold Index2.out_of_bounds len
  simp only [Index2.row_mk, Index2.col_mk]
  intro h
  rcases h with h | ⟨h, -⟩
  · omega
  · exact h rfl

theorem is_last_col_eq (j : Jagged α) (r c : Nat) (L : List α)
    (hL : j.data.get? r = some L) :
    j.is_last_col ⟨r, c⟩ = decide (c ≥ L.length - 1) := by
  unfold is_last_col
  simp only [Index2.row_mk, Index2.col_mk, hL]

theorem is_last_row_false (j : Jagged α) (r c : Nat) (h : r + 1 < j.data.length) :
    j.is_last_row ⟨r, c⟩ = false := by
  unfold is_last_row
  simp only [Index2.row_mk]
  have hb : (r == j.data.length - 1) = false := by
    simp only [beq_eq_false_iff_ne, Ne]
    omega
  rw [hb, Bool.and_false]

theorem is_last_row_true (j : Jagged α) (r c : Nat)
    (h : r = j.data.length - 1) (hne : j.data ≠ []) :
    j.is_last_row ⟨r, c⟩ = true := by
  unfold is_last_row
  simp only [Index2.row_mk]
  have hb : (r == j.data.length - 1) = true := by
    simp only [beq_iff_eq]
    exact h
  have he : j.data.isEmpty = false := by
    simp [List.isEmpty_iff, hne]
  rw [hb, he]
  rfl

theorem iter_row_ne (j : Jagged α) (lastPos : Index2)
    (hlpr : lastPos.row = j.data.length - 1)
    (hlpc : lastPos.col = (j.rowAt (j.data.length - 1)).length - 1) :
    ∀ (n : Nat), ∀ (fuel c r : Nat) (L : List α),
      j.data.get? r = some L → c + (n + 1) = L.length → n + 1 ≤ fuel →
      iterList j fuel ⟨r, c, some lastPos, false⟩ =
        ((List.range' c (n + 1)).map fun k => (L.get? k, (⟨r, k⟩ : Index2))) ++
          (if r + 1 < j.data.length then
            iterList j (fuel - (n + 1)) ⟨r + 1, 0, some lastPos, false⟩
           else []) := by
  intro n
  induction n with
  | zero =>
    intro fuel c r L hL hc hf
    obtain ⟨f, rfl⟩ : ∃ f, fuel = f + 1 := ⟨fuel - 1, by omega⟩
    have hclt : c < L.length := by omega
    have hoob := not_oob_of_lt j r c L hL hclt
    obtain ⟨hrlt, -⟩ := List.get?_eq_some.mp hL
    have hlc : j.is_last_col ⟨r, c⟩ = true := by
      rw [is_last_col_eq j r c L hL]
      simp only [decide_eq_true_eq, ge_iff_le]
      omega
    have hmap : (List.range' c 1).map (fun k => (L.get? k, (⟨r, k⟩ : Index2))) =
        [(L.get? c, (⟨r, c⟩ : Index2))] := rfl
    by_cases hlast : r + 1 < j.data.length
    · have hlr : j.is_last_row ⟨r, c⟩ = false := is_last_row_false j r c hlast
      have hnext := next_step_row j ⟨r, c⟩ hlr hlc
      simp only [Index2.row_mk] at hnext
      have hso : some lastPos ≠ some (⟨r, c⟩ : Index2) := by
        simp only [Ne, Option.some.injEq]
        intro he
        have : lastPos.row = r := by rw [he]
        omega
      rw [iterList_step_some j f r c (some lastPos) _ _ hoob hnext hso]
      simp only [Index2.row_mk, Index2.col_mk]
      rw [if_pos hlast, hmap, get_mk_eq j r c L hL]
      have hfe : f + 1 - (0 + 1) = f := by omega
      rw [hfe, List.cons_append, List.nil_append]
    · have hr_eq : r = j.data.length - 1 := by omega
      have hne : j.data ≠ [] := by
        intro h
        rw [h] at hrlt
        simp at hrlt
      have hlr : j.is_last_row ⟨r, c⟩ = true := is_last_row_true j r c hr_eq hne
      have hnext := next_step_last j ⟨r, c⟩ hlr hlc
      rw [iterList_step_last j f r c (some lastPos) hoob hnext]
      rw [if_neg hlast, hmap, get_mk_eq j r c L hL, List.append_nil]
  | succ m ih =>
    intro fuel c r L hL hc hf
    obtain ⟨f, rfl⟩ : ∃ f, fuel = f + 1 := ⟨fuel - 1, by omega⟩
    have hclt : c < L.length := by omega
    have hc1lt : c + 1 < L.length := by omega
    have hoob := not_oob_of_lt j r c L hL hclt
    obtain ⟨hrlt, -⟩ := List.get?_eq_some.mp hL
    have hlc : j.is_last_col ⟨r, c⟩ = false := by
      rw [is_last_col_eq j r c L hL]
      simp only [decide_eq_false_iff_not, ge_iff_le]
      omega
    obtain ⟨v, hv⟩ : ∃ v, L.get? (c + 1) = some v := by
      cases hg : L.get? (c + 1) with
      | none => exact absurd (List.get?_eq_none.mp hg) (by omega)
      | some v => exact ⟨v, rfl⟩
    have hget1 : j.get ⟨r, c + 1⟩ = some v := by
      rw [get_mk_eq j r (c + 1) L hL]
      exact hv
    have hnext : j.next ⟨r, c⟩ = some (some v, ⟨r, c + 1⟩) := by
      rw [next_step_col j ⟨r, c⟩ hlc]
      simp only [Index2.row_mk, Index2.col_mk]
      rw [hget1]
      rfl
    have hso : some lastPos ≠ some (⟨r, c⟩ : Index2) := by
      simp only [Ne, Option.some.injEq]
      intro he
      have hrow : lastPos.row = r := by rw [he]
      have hcol : lastPos.col = c := by rw [he]
      have hreq : r = j.data.length - 1 := by omega
      have hA : j.rowAt (j.data.length - 1) = L := by
        rw [← hreq]
        exact rowAt_mk_eq j r L hL
      rw [hA] at hlpc
      omega
    have hfe : f + 1 - (m + 1 + 1) = f - (m + 1) := by omega
    rw [iterList_step_some j f r c (some lastPos) _ _ hoob hnext hso]
    simp only [Index2.row_mk, Index2.col_mk]
    rw [List.range'_succ, List.map_cons, List.cons_append, get_mk_eq j r c L hL]
    rw [ih f (c + 1) r L hL (by omega) (by omega)]
    rw [hfe]

theorem iter_row_nil (j : Jagged α) (lastPos : Index2)
    (hlpr : lastPos.row = j.data.length - 1) :
    ∀ (fuel r : Nat), j.data.get? r = some [] → 1 ≤ fuel →
      iterList j fuel ⟨r, 0, some lastPos, false⟩ =
        (none, (⟨r, 0⟩ : Index2)) ::
          (if r + 1 < j.data.length then
            iterList j (fuel - 1) ⟨r + 1, 0, some lastPos, false⟩
           else []) := by
  intro fuel r hL hf
  obtain ⟨f, rfl⟩ : ∃ f, fuel = f + 1 := ⟨fuel - 1, by omega⟩
  have hoob := not_oob_row j r [] hL
  obtain ⟨hrlt, -⟩ := List.get?_eq_some.mp hL
  have hlc : j.is_last_col ⟨r, 0⟩ = true := by
    rw [is_last_col_eq j r 0 [] hL]
    rfl
  have hget : j.get ⟨r, 0⟩ = none := by
    rw [get_mk_eq j r 0 [] hL]
    rfl
  by_cases hlast : r + 1 < j.data.length
  · have hlr : j.is_last_row ⟨r, 0⟩ = false := is_last_row_false j r 0 hlast
    have hnext := next_step_row j ⟨r, 0⟩ hlr hlc
    simp only [Index2.row_mk] at hnext
    have hso : some lastPos ≠ some (⟨r, 0⟩ : Index2) := by
      simp only [Ne, Option.some.injEq]
      intro he
      have : lastPos.row = r := by rw [he]
      omega
    rw [iterList_step_some j f r 0 (some lastPos) _ _ hoob hnext hso]
    simp only [Index2.row_mk, Index2.col_mk]
    rw [if_pos hlast, hget]
    rfl
  · have hr_eq : r = j.data.length - 1 := by omega
    have hne : j.data ≠ [] := by
      intro h
      rw [h] at hrlt
      simp at hrlt
    have hlr : j.is_last_row ⟨r, 0⟩ = true := is_last_row_true j r 0 hr_eq hne
    have hnext := next_step_last j ⟨r, 0⟩ hlr hlc
    rw [iterList_step_last j f r 0 (some lastPos) hoob hnext]
    rw [if_neg hlast, hget]

theorem iter_rows (j : Jagged α) (lastPos : Index2)
    (hlpr : lastPos.row = j.data.length - 1)
    (hlpc : lastPos.col = (j.rowAt (j.data.length - 1)).length - 1) :
    ∀ (rest : List (List α)) (r fuel : Nat),
      j.data.drop r = rest → weight rest ≤ fuel →
      iterList j fuel ⟨r, 0, some lastPos, false⟩ = rowsTrace r rest := by
  intro rest
  induction rest with
  | nil =>
    intro r fuel hdrop hw
    have hlen : j.data.length ≤ r := by
      by_contra hcon
      have : j.data.drop r ≠ [] := by
        intro h
        have := List.length_drop r j.data ▸ congrArg List.length h
        simp at this
        omega
      exact this hdrop
    have hoob : (⟨r, 0⟩ : Index2).out_of_bounds j := by
      unfold Index2.out_of_bounds len
      exact Or.inl (by simpa using hlen)
    rw [iterList_of_oob j fuel _ hoob]
    rfl
  | cons L rest ih =>
    intro r fuel hdrop hw
    have hget : j.data.get? r = some L := by
      have h0 : (j.data.drop r).get? 0 = some L := by rw [hdrop]; rfl
      rw [List.get?_drop] at h0
      simpa using h0
    have hdrop' : j.data.drop (r + 1) = rest := by
      have : (j.data.drop r).drop 1 = rest := by rw [hdrop]; rfl
      rw [List.drop_drop] at this
      simpa [Nat.add_comm] using this
    have hwL : weight (L :: rest) = L.length + 1 + weight rest := by
      unfold weight
      simp [Nat.add_comm, Nat.add_assoc, Nat.add_left_comm]
    have hcont : ∀ f, weight rest ≤ f →
        (if r + 1 < j.data.length then iterList j f ⟨r + 1, 0, some lastPos, false⟩
         else []) = rowsTrace (r + 1) rest := by
      intro f hfw
      by_cases hlast : r + 1 < j.data.length
      · rw [if_pos hlast]
        exact ih (r + 1) f hdrop' hfw
      · rw [if_neg hlast]
        have : rest = [] := by
          rw [← hdrop']
          apply List.drop_eq_nil_of_le
          omega
        rw [this]
        rfl
    cases L with
    | nil =>
      have h0 : ([] : List α).length = 0 := rfl
      rw [iter_row_nil j lastPos hlpr fuel r hget (by omega)]
      show _ = rowTrace r [] ++ rowsTrace (r + 1) rest
      rw [hcont (fuel - 1) (by omega)]
      rfl
    | cons a t =>
      have hlc2 : (a :: t).length = t.length + 1 := by simp
      rw [iter_row_ne j lastPos hlpr hlpc t.length fuel 0 r (a :: t) hget
        (by simp) (by omega)]
      show _ = rowTrace r (a :: t) ++ rowsTrace (r + 1) rest
      rw [hcont (fuel - (t.length + 1)) (by omega)]
      have hrt : rowTrace r (a :: t) =
          (List.range' 0 (t.length + 1)).map fun k => ((a :: t).get? k, (⟨r, k⟩ : Index2)) := by
        unfold rowTrace
        rw [if_neg (by simp), hlc2]
      rw [hrt]

end Jagged

/-- Claim C4: `copy_range` is a pure read: in this embedding it takes the
container by value and returns a fresh container, so the source is unchanged
and two calls with equal arguments agree by construction; substantively,
copying the full unbounded range returns a container equal to the original. -/
theorem copy_range_full_c4 {α : Type} (j : Jagged α) :
    j.copy_range Bnd.unbounded Bnd.unbounded = j := by
  obtain ⟨D⟩ := j
  cases D with
  | nil => rfl
  | cons L0 rest =>
    have hlenD : (Jagged.mk (L0 :: rest)).len = rest.length + 1 := by
      unfold Jagged.len
      simp
    have hlr : (Jagged.mk (L0 :: rest)).last_row_index = rest.length := by
      unfold Jagged.last_row_index
      rw [hlenD]
      omega
    have hrlt : rest.length < (Jagged.mk (L0 :: rest)).len := by
      rw [hlenD]
      omega
    have hgetlast := Jagged.rowAt_length_of_lt (Jagged.mk (L0 :: rest)) hrlt
    have hlc : (Jagged.mk (L0 :: rest)).last_col_index rest.length =
        ((Jagged.mk (L0 :: rest)).rowAt rest.length).length - 1 := by
      unfold Jagged.last_col_index
      simp only [hgetlast]
    unfold Jagged.copy_range
    rw [show (Jagged.mk (L0 :: rest)).range_bounds Bnd.unbounded Bnd.unbounded =
        some (⟨0, 0⟩, ⟨(Jagged.mk (L0 :: rest)).last_row_index,
          (Jagged.mk (L0 :: rest)).last_col_index
            (Jagged.mk (L0 :: rest)).last_row_index⟩) from rfl]
    simp only [Index2.row_mk, Index2.col_mk]
    rw [if_neg (Nat.not_lt_zero _)]
    rw [if_neg (lt_irrefl _)]
    simp only [Index2.row_mk, Index2.col_mk, hlr, hlc]
    rw [Jagged.len_col_getD]
    rw [min_eq_left (Nat.sub_le _ _)]
    rw [Jagged.iter_rows (Jagged.mk (L0 :: rest))
      ⟨rest.length, ((Jagged.mk (L0 :: rest)).rowAt rest.length).length - 1⟩
      (by simp) (by simp) (L0 :: rest) 0 (Jagged.fuelFor (Jagged.mk (L0 :: rest)))
      rfl (by
        have hfw : Jagged.fuelFor (Jagged.mk (L0 :: rest)) =
            Jagged.weight (L0 :: rest) + 1 := rfl
        omega)]
    rw [Jagged.collectJ_rowsTrace]
    simp

/-! ## Match-scan machinery -/

namespace Jagged

variable {α : Type}

theorem scanBump_spec (pat : List α) (L : List α) (col : Nat) (buf : List α) (v : α)
    (hp : pat ≠ [])
    (hv : L.get? col = some v)
    (hlen : buf.length ≤ pat.length)
    (hinv : buf = [] ∨ col = 0 ∨ (buf.length ≤ col ∧
      ∀ k, k < buf.length → L.get? (col - buf.length + k) = buf.get? k)) :
    1 ≤ (scanBump pat buf col v).length ∧
    (scanBump pat buf col v).length ≤ pat.length ∧
    (scanBump pat buf col v).length ≤ col + 1 ∧
    (∀ k, k < (scanBump pat buf col v).length →
      L.get? (col + 1 - (scanBump pat buf col v).length + k) =
        (scanBump pat buf col v).get? k) ∧
    col - buf.length ≤ col + 1 - (scanBump pat buf col v).length := by
  have hplen : 0 < pat.length := List.length_pos.mpr hp
  by_cases hc0 : col = 0
  · subst hc0
    have hb : scanBump pat buf 0 v = [v] := by
      simp [scanBump, Nat.le_zero, List.length_eq_zero, hp]
    rw [hb]
    refine ⟨by simp, by simp only [List.length_singleton]; omega,
      by simp, ?_, by simp⟩
    intro k hk
    have hk0 : k = 0 := by simpa using hk
    subst hk0
    simpa using hv
  · rcases hinv with hbe | hc0' | ⟨hble, hslice⟩
    · subst hbe
      have hb : scanBump pat [] col v = [v] := by
        simp [scanBump, hc0, Nat.le_zero, List.length_eq_zero, hp]
      rw [hb]
      refine ⟨by simp, by simp only [List.length_singleton]; omega,
        by simp only [List.length_singleton]; omega, ?_,
        by simp only [List.length_singleton, List.length_nil]; omega⟩
      intro k hk
      have hk0 : k = 0 := by simpa using hk
      subst hk0
      have hidx : col + 1 - [v].length + 0 = col := by
        simp only [List.length_singleton]
        omega
      rw [hidx]
      simpa using hv
    · exact absurd hc0' hc0
    · by_cases hfull : pat.length ≤ buf.length
      · have hbl : buf.length = pat.length := by omega
        have hb : scanBump pat buf col v = buf.tail ++ [v] := by
          simp [scanBump, hc0, hfull]
        have htl : buf.tail.length = pat.length - 1 := by
          rw [List.length_tail, hbl]
        have hblen3 : (buf.tail ++ [v]).length = pat.length := by
          simp only [List.length_append, List.length_singleton, htl]
          omega
        rw [hb, hblen3]
        refine ⟨by omega, le_refl _, by omega, ?_, by omega⟩
        intro k hk
        by_cases hkl : k < pat.length - 1
        · have h1 : (buf.tail ++ [v]).get? k = buf.tail.get? k :=
            List.get?_append (by rw [htl]; omega)
          have h2 : buf.tail.get? k = buf.get? (k + 1) := by
            cases buf with
            | nil =>
              exfalso
              simp only [List.length_nil] at hbl
              omega
            | cons b bs => rfl
          have h3 := hslice (k + 1) (by omega)
          have hidx : col - buf.length + (k + 1) = col + 1 - pat.length + k := by
            omega
          rw [h1, h2, ← h3, hidx]
        · have hke : k = pat.length - 1 := by omega
          have h1 : (buf.tail ++ [v]).get? k = some v := by
            rw [hke, ← htl]
            exact List.get?_concat_length _ _
          have hidx : col + 1 - pat.length + k = col := by omega
          rw [h1, hidx]
          exact hv
      · have hb : scanBump pat buf col v = buf ++ [v] := by
          simp [scanBump, hc0, hfull]
        have hblen3 : (buf ++ [v]).length = buf.length + 1 := by
          simp
        rw [hb, hblen3]
        refine ⟨by omega, by omega, by omega, ?_, by omega⟩
        intro k hk
        by_cases hkl : k < buf.length
        · have h1 : (buf ++ [v]).get? k = buf.get? k := List.get?_append hkl
          have h3 := hslice k hkl
          have hidx : col + 1 - (buf.length + 1) + k = col - buf.length + k := by
            omega
          rw [h1, hidx]
          exact h3
        · have hke : k = buf.length := by omega
          have h1 : (buf ++ [v]).get? k = some v := by
            rw [hke]
            exact List.get?_concat_length _ _
          have hidx : col + 1 - (buf.length + 1) + k = col := by omega
          rw [h1, hidx]
          exact hv

theorem scanPairs_nil [DecidableEq α] (pat : List α) (buf : List α) :
    scanPairs pat [] buf = none := rfl

theorem scanPairs_cons_skip [DecidableEq α] (pat : List α) (idx : Index2)
    (rest : List (Option α × Index2)) (buf : List α) :
    scanPairs pat ((none, idx) :: rest) buf = scanPairs pat rest buf := rfl

theorem scanPairs_cons_some [DecidableEq α] (pat : List α) (v : α) (idx : Index2)
    (rest : List (Option α × Index2)) (buf : List α) :
    scanPairs pat ((some v, idx) :: rest) buf =
      if scanBump pat buf idx.col v = pat then some idx
      else scanPairs pat rest (scanBump pat buf idx.col v) := rfl

theorem scan_master [DecidableEq α] (j : Jagged α) (pat : List α) (hp : pat ≠ []) :
    ∀ (fuel r c : Nat) (buf : List α) (idx : Index2),
      buf.length ≤ pat.length →
      (buf = [] ∨ c = 0 ∨ (buf.length ≤ c ∧
        ∀ k, k < buf.length → (j.rowAt r).get? (c - buf.length + k) = buf.get? k)) →
      scanPairs pat (iterList j fuel ⟨r, c, none, false⟩) buf = some idx →
      pat.length ≤ idx.col + 1 ∧
      (∀ k, k < pat.length →
        (j.rowAt idx.row).get? (idx.col + 1 - pat.length + k) = pat.get? k) ∧
      i2le ⟨r, c - buf.length⟩ ⟨idx.row, idx.col + 1 - pat.length⟩ := by
  intro fuel
  induction fuel with
  | zero =>
    intro r c buf idx hlen hinv hscan
    simp [iterList, scanPairs] at hscan
  | succ fuel ih =>
    intro r c buf idx hlen hinv hscan
    by_cases hoob : (⟨r, c⟩ : Index2).out_of_bounds j
    · rw [iterList_of_oob j (fuel + 1) _ hoob, scanPairs_nil] at hscan
      exact Option.noConfusion hscan
    · have h1 : r < j.len := by
        by_contra h
        exact hoob (Or.inl (by simp only [Index2.row_mk]; omega))
      have h2 : c = 0 ∨ c < (j.rowAt r).length := by
        by_cases hc : c = 0
        · exact Or.inl hc
        · right
          by_contra h
          refine hoob (Or.inr ?_)
          simp only [Index2.col_mk, Index2.row_mk]
          rw [len_col_getD]
          exact ⟨hc, by omega⟩
      have hLrow := rowAt_length_of_lt j h1
      cases hnx : j.next ⟨r, c⟩ with
      | none =>
        rw [iterList_step_last j fuel r c none hoob hnx] at hscan
        cases hv : j.get ⟨r, c⟩ with
        | none =>
          rw [hv, scanPairs_cons_skip, scanPairs_nil] at hscan
          exact Option.noConfusion hscan
        | some v =>
          rw [hv, scanPairs_cons_some] at hscan
          simp only [Index2.col_mk] at hscan
          have hv' : (j.rowAt r).get? c = some v := by
            rw [← get_mk_eq j r c (j.rowAt r) hLrow]
            exact hv
          have hspec := scanBump_spec pat (j.rowAt r) c buf v hp hv' hlen hinv
          obtain ⟨hs1, hs2, hs3, hs4, hs5⟩ := hspec
          by_cases hm : scanBump pat buf c v = pat
          · rw [if_pos hm] at hscan
            injection hscan with hidx
            subst hidx
            rw [hm] at hs3 hs4 hs5
            simp only [Index2.row_mk, Index2.col_mk]
            exact ⟨hs3, hs4, Or.inr ⟨rfl, hs5⟩⟩
          · rw [if_neg hm, scanPairs_nil] at hscan
            exact Option.noConfusion hscan
      | some wq =>
        obtain ⟨w, q⟩ := wq
        rw [iterList_step_some j fuel r c none w q hoob hnx (by simp)] at hscan
        cases hv : j.get ⟨r, c⟩ with
        | none =>
          rw [hv, scanPairs_cons_skip] at hscan
          have hv' : (j.rowAt r).get? c = none := by
            rw [← get_mk_eq j r c (j.rowAt r) hLrow]
            exact hv
          have hc0 : c = 0 := by
            rcases h2 with h | h
            · exact h
            · exact absurd (List.get?_eq_none.mp hv') (by omega)
          have hrow0 : (j.rowAt r).length = 0 := by
            have := List.get?_eq_none.mp hv'
            omega
          have hlc : j.is_last_col ⟨r, c⟩ = true := by
            rw [is_last_col_eq j r c (j.rowAt r) hLrow]
            simp only [decide_eq_true_eq, ge_iff_le]
            omega
          have hlrow : j.is_last_row ⟨r, c⟩ = false := by
            cases hb : j.is_last_row ⟨r, c⟩ with
            | false => rfl
            | true =>
              exact absurd (next_step_last j ⟨r, c⟩ hb hlc) (by rw [hnx]; simp)
          have hq : q = ⟨r + 1, 0⟩ := by
            have hstep := next_step_row j ⟨r, c⟩ hlrow hlc
            simp only [Index2.row_mk] at hstep
            rw [hstep] at hnx
            simp only [Option.some.injEq, Prod.mk.injEq] at hnx
            exact hnx.2.symm
          subst hq
          simp only [Index2.row_mk, Index2.col_mk] at hscan
          have hres := ih (r + 1) 0 buf idx hlen (Or.inr (Or.inl rfl)) hscan
          refine ⟨hres.1, hres.2.1, i2le_trans ?_ hres.2.2⟩
          exact Or.inl (by simp only [Index2.row_mk]; omega)
        | some v =>
          rw [hv, scanPairs_cons_some] at hscan
          simp only [Index2.col_mk] at hscan
          have hv' : (j.rowAt r).get? c = some v := by
            rw [← get_mk_eq j r c (j.rowAt r) hLrow]
            exact hv
          have hspec := scanBump_spec pat (j.rowAt r) c buf v hp hv' hlen hinv
          obtain ⟨hs1, hs2, hs3, hs4, hs5⟩ := hspec
          by_cases hm : scanBump pat buf c v = pat
          · rw [if_pos hm] at hscan
            injection hscan with hidx
            subst hidx
            rw [hm] at hs3 hs4 hs5
            simp only [Index2.row_mk, Index2.col_mk]
            exact ⟨hs3, hs4, Or.inr ⟨rfl, hs5⟩⟩
          · rw [if_neg hm] at hscan
            cases hlcv : j.is_last_col ⟨r, c⟩ with
            | false =>
              have hnc := next_step_col j ⟨r, c⟩ hlcv
              simp only [Index2.row_mk, Index2.col_mk] at hnc
              rw [hnc] at hnx
              cases hg2 : j.get ⟨r, c + 1⟩ with
              | none =>
                rw [hg2] at hnx
                simp at hnx
              | some u =>
                rw [hg2] at hnx
                simp only [Option.map_some', Option.some.injEq, Prod.mk.injEq] at hnx
                obtain ⟨-, hq⟩ := hnx
                subst hq
                simp only [Index2.row_mk, Index2.col_mk] at hscan
                have hres := ih r (c + 1) (scanBump pat buf c v) idx hs2
                  (Or.inr (Or.inr ⟨hs3, hs4⟩)) hscan
                refine ⟨hres.1, hres.2.1, i2le_trans ?_ hres.2.2⟩
                exact Or.inr ⟨rfl, hs5⟩
            | true =>
              have hlrow : j.is_last_row ⟨r, c⟩ = false := by
                cases hb : j.is_last_row ⟨r, c⟩ with
                | false => rfl
                | true =>
                  exact absurd (next_step_last j ⟨r, c⟩ hb hlcv) (by rw [hnx]; simp)
              have hnr := next_step_row j ⟨r, c⟩ hlrow hlcv
              simp only [Index2.row_mk] at hnr
              rw [hnr] at hnx
              simp only [Option.some.injEq, Prod.mk.injEq] at hnx
              obtain ⟨-, hq⟩ := hnx
              subst hq
              simp only [Index2.row_mk, Index2.col_mk] at hscan
              have hres := ih (r + 1) 0 (scanBump pat buf c v) idx hs2
                (Or.inr (Or.inl rfl)) hscan
              refine ⟨hres.1, hres.2.1, i2le_trans ?_ hres.2.2⟩
              exact Or.inl (by simp only [Index2.row_mk]; omega)

theorem next_lt (j : Jagged α) (p : Index2) (w : Option α) (q : Index2)
    (h : j.next p = some (w, q)) : i2lt p q := by
  cases hlc : j.is_last_col p with
  | false =>
    rw [next_step_col j p hlc] at h
    cases hg : j.get ⟨p.row, p.col + 1⟩ with
    | none =>
      rw [hg] at h
      simp at h
    | some u =>
      rw [hg] at h
      simp only [Option.map_some', Option.some.injEq, Prod.mk.injEq] at h
      obtain ⟨-, hq⟩ := h
      rw [← hq]
      exact Or.inr ⟨rfl, Nat.lt_succ_self _⟩
  | true =>
    cases hlr : j.is_last_row p with
    | true =>
      rw [next_step_last j p hlr hlc] at h
      exact Option.noConfusion h
    | false =>
      rw [next_step_row j p hlr hlc] at h
      simp only [Option.some.injEq, Prod.mk.injEq] at h
      obtain ⟨-, hq⟩ := h
      rw [← hq]
      exact Or.inl (Nat.lt_succ_self _)

theorem matchIndicesFrom_zero [DecidableEq α] (j : Jagged α) (pat : List α)
    (si? : Option Index2) : matchIndicesFrom j pat 0 si? = [] := rfl

theorem matchIndicesFrom_not_some [DecidableEq α] (j : Jagged α) (pat : List α)
    (fuel : Nat) : matchIndicesFrom j pat fuel none = [] := by
  cases fuel <;> rfl

theorem matchIndicesFrom_succ [DecidableEq α] (j : Jagged α) (pat : List α)
    (fuel : Nat) (si : Index2) :
    matchIndicesFrom j pat (fuel + 1) (some si) =
      if j.data.isEmpty ∨ pat.isEmpty then []
      else
        match scanPairs pat (iterList j (fuelFor j) ⟨si.row, si.col, none, false⟩) [] with
        | none => []
        | some idx =>
          (⟨idx.row, idx.col - (pat.length - 1)⟩ : Index2) ::
            matchIndicesFrom j pat fuel ((j.next idx).map Prod.snd) := rfl

theorem matchIndicesFrom_within [DecidableEq α] (j : Jagged α) (pat : List α)
    (hp : pat ≠ []) :
    ∀ (fuel : Nat) (si? : Option Index2) (s : Index2),
      s ∈ matchIndicesFrom j pat fuel si? →
      s.col + pat.length ≤ (j.rowAt s.row).length ∧
      (∀ k, k < pat.length → (j.rowAt s.row).get? (s.col + k) = pat.get? k) := by
  intro fuel
  induction fuel with
  | zero =>
    intro si? s hs
    rw [matchIndicesFrom_zero] at hs
    exact absurd hs (List.not_mem_nil s)
  | succ fuel ih =>
    intro si? s hs
    cases si? with
    | none =>
      rw [matchIndicesFrom_not_some] at hs
      exact absurd hs (List.not_mem_nil s)
    | some si =>
      rw [matchIndicesFrom_succ] at hs
      by_cases hg : j.data.isEmpty ∨ pat.isEmpty
      · rw [if_pos hg] at hs
        exact absurd hs (List.not_mem_nil s)
      · rw [if_neg hg] at hs
        cases hscan : scanPairs pat
            (iterList j (fuelFor j) ⟨si.row, si.col, none, false⟩) [] with
        | none =>
          rw [hscan] at hs
          exact absurd hs (List.not_mem_nil s)
        | some idx =>
          rw [hscan] at hs
          rcases List.mem_cons.mp hs with hs1 | hs2
          · subst hs1
            have hres := scan_master j pat hp (fuelFor j) si.row si.col [] idx
              (by simp) (Or.inl rfl) hscan
            have hplen : 0 < pat.length := List.length_pos.mpr hp
            have h1 := hres.1
            simp only [Index2.row_mk, Index2.col_mk]
            have heq : idx.col - (pat.length - 1) = idx.col + 1 - pat.length := by
              omega
            rw [heq]
            constructor
            · have hlast := hres.2.1 (pat.length - 1) (by omega)
              have hidx2 : idx.col + 1 - pat.length + (pat.length - 1) = idx.col := by
                omega
              rw [hidx2] at hlast
              obtain ⟨x, hx⟩ : ∃ x, pat.get? (pat.length - 1) = some x := by
                cases hgp : pat.get? (pat.length - 1) with
                | none => exact absurd (List.get?_eq_none.mp hgp) (by omega)
                | some x => exact ⟨x, rfl⟩
              rw [hx] at hlast
              obtain ⟨hcl, -⟩ := List.get?_eq_some.mp hlast
              omega
            · exact hres.2.1
          · exact ih _ s hs2

theorem head_matchIndicesFrom_ge [DecidableEq α] (j : Jagged α) (pat : List α)
    (fuel : Nat) (si s2 : Index2)
    (hh : (matchIndicesFrom j pat fuel (some si)).head? = some s2) :
    i2le si s2 := by
  cases fuel with
  | zero =>
    rw [matchIndicesFrom_zero] at hh
    exact Option.noConfusion hh
  | succ fuel =>
    rw [matchIndicesFrom_succ] at hh
    by_cases hg : j.data.isEmpty ∨ pat.isEmpty
    · rw [if_pos hg] at hh
      exact Option.noConfusion hh
    · rw [if_neg hg] at hh
      have hp : pat ≠ [] := by
        intro h
        exact hg (Or.inr (by rw [h]; rfl))
      cases hscan : scanPairs pat
          (iterList j (fuelFor j) ⟨si.row, si.col, none, false⟩) [] with
      | none =>
        rw [hscan] at hh
        exact Option.noConfusion hh
      | some idx =>
        rw [hscan] at hh
        simp only [List.head?_cons, Option.some.injEq] at hh
        subst hh
        have hres := scan_master j pat hp (fuelFor j) si.row si.col [] idx
          (by simp) (Or.inl rfl) hscan
        have hplen : 0 < pat.length := List.length_pos.mpr hp
        have h1 := hres.1
        have h2 := hres.2.2
        have hsi : (⟨si.row, si.col - ([] : List α).length⟩ : Index2) = si := by
          simp
        rw [hsi] at h2
        have heq : idx.col - (pat.length - 1) = idx.col + 1 - pat.length := by
          omega
        rw [heq]
        exact h2

theorem chain_matchIndicesFrom [DecidableEq α] (j : Jagged α) (pat : List α) :
    ∀ (fuel : Nat) (si? : Option Index2),
      List.Chain' (fun a b => i2lt ⟨a.row, a.col + (pat.length - 1)⟩ b)
        (matchIndicesFrom j pat fuel si?) := by
  intro fuel
  induction fuel with
  | zero =>
    intro si?
    rw [matchIndicesFrom_zero]
    exact List.chain'_nil
  | succ fuel ih =>
    intro si?
    cases si? with
    | none =>
      rw [matchIndicesFrom_not_some]
      exact List.chain'_nil
    | some si =>
      rw [matchIndicesFrom_succ]
      by_cases hg : j.data.isEmpty ∨ pat.isEmpty
      · rw [if_pos hg]
        exact List.chain'_nil
      · rw [if_neg hg]
        have hp : pat ≠ [] := by
          intro h
          exact hg (Or.inr (by rw [h]; rfl))
        cases hscan : scanPairs pat
            (iterList j (fuelFor j) ⟨si.row, si.col, none, false⟩) [] with
        | none => exact List.chain'_nil
        | some idx =>
          rw [List.chain'_cons']
          constructor
          · intro s2 hs2
            cases hnx : j.next idx with
            | none =>
              rw [hnx] at hs2
              rw [show Option.map Prod.snd (none : Option (Option α × Index2)) =
                none from rfl] at hs2
              rw [matchIndicesFrom_not_some] at hs2
              simp at hs2
            | some wq =>
              obtain ⟨w, q⟩ := wq
              rw [hnx] at hs2
              rw [show Option.map Prod.snd (some (w, q)) = some q from rfl] at hs2
              rw [Option.mem_def] at hs2
              have hge := head_matchIndicesFrom_ge j pat fuel q s2 hs2
              have hlt := next_lt j idx w q hnx
              have hres := scan_master j pat hp (fuelFor j) si.row si.col [] idx
                (by simp) (Or.inl rfl) hscan
              have h1 := hres.1
              have hplen : 0 < pat.length := List.length_pos.mpr hp
              simp only [Index2.row_mk, Index2.col_mk]
              have heq : idx.col - (pat.length - 1) + (pat.length - 1) = idx.col := by
                omega
              rw [heq]
              have heta : (⟨idx.row, idx.col⟩ : Index2) = idx := rfl
              rw [heta]
              exact i2lt_trans_le hlt hge
          · exact ih ((j.next idx).map Prod.snd)

end Jagged

/-- Claim C7: pattern search never reports two overlapping matches — each
reported occurrence (which lies within one row and ends `pat.length - 1`
columns after its start) ends strictly before the next reported start in
row-major order; the container with rows "aabcaabc", "", "aabc." and pattern
"abc" reports exactly (0,1), (0,5), (2,1); an empty pattern or an empty
container yields no matches. -/
theorem match_indices_c7 :
    (∀ (α : Type) [DecidableEq α] (j : Jagged α) (pat : List α),
      List.Chain' (fun a b => i2lt ⟨a.row, a.col + (pat.length - 1)⟩ b)
        (j.match_indices pat)) ∧
    ((⟨[['a', 'a', 'b', 'c', 'a', 'a', 'b', 'c'], [],
        ['a', 'a', 'b', 'c', '.']]⟩ : Jagged Char).match_indices ['a', 'b', 'c'] =
      [⟨0, 1⟩, ⟨0, 5⟩, ⟨2, 1⟩]) ∧
    (∀ (α : Type) [DecidableEq α] (j : Jagged α), j.match_indices ([] : List α) = []) ∧
    (∀ (α : Type) [DecidableEq α] (pat : List α),
      (⟨[]⟩ : Jagged α).match_indices pat = []) := by
  refine ⟨?_, ?_, ?_, ?_⟩
  · intro α _ j pat
    exact Jagged.chain_matchIndicesFrom j pat (Jagged.fuelFor j) (some ⟨0, 0⟩)
  · rfl
  · intro α _ j
    show Jagged.matchIndicesFrom j [] (Jagged.fuelFor j) (some ⟨0, 0⟩) = []
    rw [show Jagged.fuelFor j = (j.data.map fun l => l.length + 1).sum + 1 from rfl]
    rw [Jagged.matchIndicesFrom_succ]
    simp
  · intro α _ pat
    show Jagged.matchIndicesFrom (⟨[]⟩ : Jagged α) pat
      (Jagged.fuelFor (⟨[]⟩ : Jagged α)) (some ⟨0, 0⟩) = []
    rw [show Jagged.fuelFor (⟨[]⟩ : Jagged α) = 0 + 1 from rfl]
    rw [Jagged.matchIndicesFrom_succ]
    simp

/-- Claim C9 is refuted: the scan window is cleared at column 0 of every row
it enters, so no reported match ever has elements past the end of its row —
a match never spans a row boundary, for any container and pattern. -/
theorem match_span_c9_counterexample :
    ¬ ∃ (j : Jagged Char) (pat : List Char) (s : Index2),
      pat ≠ [] ∧ s ∈ j.match_indices pat ∧
        (j.rowAt s.row).length < s.col + pat.length := by
  rintro ⟨j, pat, s, hne, hmem, hlt⟩
  have h := (Jagged.matchIndicesFrom_within j pat hne (Jagged.fuelFor j)
    (some ⟨0, 0⟩) s hmem).1
  omega

/-- Claim C9 (amended): every match reported by `match_indices` lies entirely
inside a single row — the pattern occupies columns `s.col` through
`s.col + pat.length - 1` of row `s.row`, which all exist. -/
theorem match_within_row_c9 {α : Type} [DecidableEq α] (j : Jagged α)
    (pat : List α) (s : Index2) (hne : pat ≠ [])
    (hmem : s ∈ j.match_indices pat) :
    s.col + pat.length ≤ (j.rowAt s.row).length ∧
    (∀ k, k < pat.length → (j.rowAt s.row).get? (s.col + k) = pat.get? k) :=
  Jagged.matchIndicesFrom_within j pat hne (Jagged.fuelFor j) (some ⟨0, 0⟩) s hmem

/-- Witness for the amended C9 at a concrete input: the match of "abc"
reported at (0, 1) in the single row "xabc" lies within that row. -/
theorem match_within_row_c9_witness :
    (⟨0, 1⟩ : Index2).col + (['a', 'b', 'c'] : List Char).length ≤
      ((⟨[['x', 'a', 'b', 'c']]⟩ : Jagged Char).rowAt (⟨0, 1⟩ : Index2).row).length ∧
    (∀ k, k < (['a', 'b', 'c'] : List Char).length →
      ((⟨[['x', 'a', 'b', 'c']]⟩ : Jagged Char).rowAt (⟨0, 1⟩ : Index2).row).get?
        ((⟨0, 1⟩ : Index2).col + k) = (['a', 'b', 'c'] : List Char).get? k) :=
  match_within_row_c9 (⟨[['x', 'a', 'b', 'c']]⟩ : Jagged Char) ['a', 'b', 'c']
    ⟨0, 1⟩ (by decide) (by decide)

end Edtui
